import Mathlib

/-!
# PantherDB — verification of the document-store core

Shallow embedding of the PantherDB engine (`pantherdb/pantherdb.py`, the
historical single-file revision `pantherdb.py`, and `pantherdb/ulid.py`):
JSON-like values, documents as ordered field lists, the collection CRUD
operations, the cursor's sort/skip/limit pipeline, the ULID generator and
the plain-mode content codec, together with proofs about them.
-/

namespace PantherDB

/-- A JSON-like value as stored by the engine (orjson's value universe,
floats omitted): null, booleans, integers, strings, arrays, objects.
Objects are ordered association lists, mirroring Python's insertion-ordered
dicts. -/
inductive Value where
  | null
  | bool (b : Bool)
  | int (n : Int)
  | str (s : String)
  | arr (elems : List Value)
  | obj (fields : List (String × Value))

mutual

/-- Structural equality of values (Python `==` restricted to the modeled
value universe). -/
def Value.beq : Value → Value → Bool
  | .null, b => match b with | .null => true | _ => false
  | .bool x, b => match b with | .bool y => x == y | _ => false
  | .int x, b => match b with | .int y => x == y | _ => false
  | .str x, b => match b with | .str y => x == y | _ => false
  | .arr xs, b => match b with | .arr ys => Value.beqList xs ys | _ => false
  | .obj xs, b => match b with | .obj ys => Value.beqFields xs ys | _ => false

/-- Element-wise equality of value lists. -/
def Value.beqList : List Value → List Value → Bool
  | [], [] => true
  | x :: xs, y :: ys => Value.beq x y && Value.beqList xs ys
  | _, _ => false

/-- Element-wise equality of ordered field lists. -/
def Value.beqFields : List (String × Value) → List (String × Value) → Bool
  | [], [] => true
  | (k, v) :: xs, (k', v') :: ys => k == k' && Value.beq v v' && Value.beqFields xs ys
  | _, _ => false

end

instance : BEq Value := ⟨Value.beq⟩

mutual

theorem Value.beq_sound : (a b : Value) → Value.beq a b = true → a = b
  | .null, .null, _ => rfl
  | .null, .bool _, h | .null, .int _, h | .null, .str _, h
  | .null, .arr _, h | .null, .obj _, h => by simp [Value.beq] at h
  | .bool _, .null, h | .bool _, .int _, h | .bool _, .str _, h
  | .bool _, .arr _, h | .bool _, .obj _, h => by simp [Value.beq] at h
  | .bool x, .bool y, h => by simp [Value.beq] at h; rw [h]
  | .int _, .null, h | .int _, .bool _, h | .int _, .str _, h
  | .int _, .arr _, h | .int _, .obj _, h => by simp [Value.beq] at h
  | .int x, .int y, h => by simp [Value.beq] at h; rw [h]
  | .str _, .null, h | .str _, .bool _, h | .str _, .int _, h
  | .str _, .arr _, h | .str _, .obj _, h => by simp [Value.beq] at h
  | .str x, .str y, h => by simp [Value.beq] at h; rw [h]
  | .arr _, .null, h | .arr _, .bool _, h | .arr _, .int _, h
  | .arr _, .str _, h | .arr _, .obj _, h => by simp [Value.beq] at h
  | .arr xs, .arr ys, h =>
      by rw [Value.beqList_sound xs ys (by simpa [Value.beq] using h)]
  | .obj _, .null, h | .obj _, .bool _, h | .obj _, .int _, h
  | .obj _, .str _, h | .obj _, .arr _, h => by simp [Value.beq] at h
  | .obj xs, .obj ys, h =>
      by rw [Value.beqFields_sound xs ys (by simpa [Value.beq] using h)]

theorem Value.beqList_sound : (as bs : List Value) → Value.beqList as bs = true → as = bs
  | [], [], _ => rfl
  | [], _ :: _, h | _ :: _, [], h => by simp [Value.beqList] at h
  | a :: as, b :: bs, h => by
      have h' := h
      simp only [Value.beqList, Bool.and_eq_true] at h'
      rw [Value.beq_sound a b h'.1, Value.beqList_sound as bs h'.2]

theorem Value.beqFields_sound :
    (as bs : List (String × Value)) → Value.beqFields as bs = true → as = bs
  | [], [], _ => rfl
  | [], _ :: _, h | _ :: _, [], h => by simp [Value.beqFields] at h
  | (k, v) :: as, (k', v') :: bs, h => by
      have h' := h
      simp only [Value.beqFields, Bool.and_eq_true, beq_iff_eq] at h'
      rw [h'.1.1, Value.beq_sound v v' h'.1.2, Value.beqFields_sound as bs h'.2]

end

mutual

theorem Value.beq_refl : (a : Value) → Value.beq a a = true
  | .null => rfl
  | .bool x => by simp [Value.beq]
  | .int x => by simp [Value.beq]
  | .str x => by simp [Value.beq]
  | .arr xs => by simpa [Value.beq] using Value.beqList_refl xs
  | .obj xs => by simpa [Value.beq] using Value.beqFields_refl xs

theorem Value.beqList_refl : (as : List Value) → Value.beqList as as = true
  | [] => rfl
  | a :: as => by
      simp only [Value.beqList, Bool.and_eq_true]
      exact ⟨Value.beq_refl a, Value.beqList_refl as⟩

theorem Value.beqFields_refl : (as : List (String × Value)) → Value.beqFields as as = true
  | [] => rfl
  | (k, v) :: as => by
      simp only [Value.beqFields, Bool.and_eq_true, beq_self_eq_true, true_and]
      exact ⟨Value.beq_refl v, Value.beqFields_refl as⟩

end

instance : LawfulBEq Value where
  eq_of_beq h := Value.beq_sound _ _ h
  rfl := Value.beq_refl _

instance : DecidableEq Value := fun a b =>
  decidable_of_iff (Value.beq a b = true) ⟨Value.beq_sound a b, fun h => h ▸ Value.beq_refl a⟩

/-- A document: an insertion-ordered mapping from field names to values
(a Python dict built from kwargs). -/
abbrev Doc := List (String × Value)

/-- A filter: the kwargs of a query call, as ordered (field, value) pairs. -/
abbrev Filter := List (String × Value)

/-- First-occurrence lookup in an ordered association list — Python's
`dict[k]` access, `none` when the key is absent. -/
def assocGet {α : Type} (l : List (String × α)) (k : String) : Option α :=
  (l.find? (fun kv => kv.1 == k)).map (fun kv => kv.2)

/-- Python's `dict[k] = v`: replace the value at the first occurrence of `k`
in place (keeping its position), or append `(k, v)` when `k` is absent. -/
def assocSet {α : Type} : List (String × α) → String → α → List (String × α)
  | [], k, v => [(k, v)]
  | (k', v') :: rest, k, v =>
      if k' == k then (k, v) :: rest else (k', v') :: assocSet rest k v

/-- Python's `document.get(k)`: the stored value, or `None` when absent.
orjson decodes JSON null to Python `None`, so an absent field and a null
field are indistinguishable to the `get`-based matcher. -/
def pyGet (d : Doc) (k : String) : Value :=
  (assocGet d k).getD Value.null

/-- The query matching primitive of `PantherCollection._find`: a document
matches iff `document.get(k) == v` for every (k, v) pair of the kwargs.
An empty filter matches every document. -/
def matchesDoc (d : Doc) (f : Filter) : Bool :=
  f.all (fun kv => pyGet d kv.1 == kv.2)

namespace PantherCollection

/-- The index stream of `PantherCollection._find` over `enumerate(documents)`
starting at index `i`: the positions of the documents matching the filter. -/
def findIndexesFrom (f : Filter) (i : Nat) : List Doc → List Nat
  | [] => []
  | d :: ds =>
      if matchesDoc d f then i :: findIndexesFrom f (i + 1) ds
      else findIndexesFrom f (i + 1) ds

/-- `[i for i, _ in self._find(**kwargs) if i is not None]`. -/
def findIndexes (f : Filter) (docs : List Doc) : List Nat :=
  findIndexesFrom f 0 docs

/-- `PantherCollection.find` in raw-dict mode: the matching documents in
stored order (`[d for _, d in self._find(**kwargs) if d is not None]`). -/
def find (f : Filter) (docs : List Doc) : List Doc :=
  docs.filter (fun d => matchesDoc d f)

/-- `PantherCollection.count`: the collection length for an empty filter,
else the number of matching positions. -/
def count (f : Filter) (docs : List Doc) : Nat :=
  if f.isEmpty then docs.length
  else (findIndexes f docs).length

/-- `PantherCollection.insert_one`: stamp `kwargs['_id'] = ulid.new()`
(the generator's output is the `newId` argument), append the document and
return it. The `_id` assignment overwrites any caller-supplied `_id` in
place, keeping the dict's insertion order for the other keys. -/
def insert_one (fields : Doc) (newId : Value) (docs : List Doc) : Doc × List Doc :=
  let doc := assocSet fields "_id" newId
  (doc, docs ++ [doc])

/-- Outcome of a delete call: the returned value, the resulting document
list, and whether `_write_documents` ran (content persisted to disk). -/
structure DeleteOneResult where
  ok : Bool
  docs : List Doc
  wrote : Bool
deriving DecidableEq

/-- Outcome of `delete_many`: count returned, resulting documents, and
whether a write happened. -/
structure DeleteManyResult where
  count : Nat
  docs : List Doc
  wrote : Bool
deriving DecidableEq

/-- `PantherCollection.delete_one`: empty collection or empty kwargs return
`False`; otherwise the first index yielded by `_find` is popped and the
content persisted, or `False` is returned when `_find` yields its
no-match sentinel. -/
def delete_one (f : Filter) (docs : List Doc) : DeleteOneResult :=
  if docs.isEmpty then ⟨false, docs, false⟩
  else if f.isEmpty then ⟨false, docs, false⟩
  else
    match findIndexes f docs with
    | [] => ⟨false, docs, false⟩
    | i :: _ => ⟨true, docs.eraseIdx i, true⟩

/-- `PantherCollection.delete_many` (current `pantherdb/pantherdb.py`):
an empty collection returns 0 without writing; otherwise all matching
positions are collected (there is no empty-kwargs guard), popped from the
highest index down, and the content is persisted unconditionally. -/
def delete_many (f : Filter) (docs : List Doc) : DeleteManyResult :=
  if docs.isEmpty then ⟨0, docs, false⟩
  else
    let indexes := findIndexes f docs
    ⟨indexes.length, indexes.reverse.foldl (fun ds i => ds.eraseIdx i) docs, true⟩

end PantherCollection

namespace PantherDBCollection

/-- `PantherDBCollection.delete_many` (historical single-file
`pantherdb.py`): empty kwargs return 0 immediately; with no match it
returns 0 without writing; otherwise the matched positions are popped in
reverse and the collection is persisted. -/
def delete_many (f : Filter) (docs : List Doc) : PantherCollection.DeleteManyResult :=
  if f.isEmpty then ⟨0, docs, false⟩
  else
    let indexes := PantherCollection.findIndexes f docs
    if indexes.isEmpty then ⟨0, docs, false⟩
    else ⟨indexes.length, indexes.reverse.foldl (fun ds i => ds.eraseIdx i) docs, true⟩

end PantherDBCollection

/-! ## The database singleton registry (`PantherDB.__new__` / `__init__`) -/

/-- The key under which `PantherDB.__new__` looks up and stores the
singleton: the caller's `db_name` argument as given (a falsy name — absent,
`None` or empty — is replaced by the class default `database.pdb`). No
extension normalization happens here. -/
def registryKey (dbName : Option String) : String :=
  match dbName with
  | none => "database.pdb"
  | some s => if s = "" then "database.pdb" else s

/-- `str.endswith(suffix)`, spelled out on the character lists so that it
evaluates inside the kernel. -/
def strEndsWith (s suffix : String) : Bool :=
  suffix.data.isSuffixOf s.data

/-- The file name `PantherDB.__init__` resolves and touches: a falsy
`db_name` keeps the class default; a name already ending in `.pdb` or
`.json` is kept; otherwise `.pdb` is appended when a secret key is
configured and `.json` when not. -/
def resolvedDbName (secretKey : Bool) (dbName : Option String) : String :=
  match dbName with
  | none => "database.pdb"
  | some s =>
      if s = "" then "database.pdb"
      else if strEndsWith s ".pdb" || strEndsWith s ".json" then s
      else if secretKey then s ++ ".pdb" else s ++ ".json"

/-- Position of the first occurrence of `k` in the registry's key list. -/
def keyIndex (k : String) : List String → Option Nat
  | [] => none
  | s :: rest => if s = k then some 0 else (keyIndex k rest).map (fun n => n + 1)

/-- One `PantherDB.__new__` call against the process-wide `_instances`
registry, modeled by the list of registered keys in creation order: an
instance is identified by its creation index. Returns the updated registry
and the index of the instance handed back. -/
def new (instances : List String) (dbName : Option String) : List String × Nat :=
  let key := registryKey dbName
  match keyIndex key instances with
  | some i => (instances, i)
  | none => (instances ++ [key], instances.length)

theorem keyIndex_lt_length (k : String) :
    ∀ (l : List String) (i : Nat), keyIndex k l = some i → i < l.length := by
  intro l
  induction l with
  | nil => intro i h; simp [keyIndex] at h
  | cons s rest ih =>
      intro i h
      by_cases hs : s = k
      · simp only [keyIndex, if_pos hs, Option.some.injEq] at h
        subst h
        simp
      · simp only [keyIndex, hs, if_false, Option.map_eq_some'] at h
        obtain ⟨j, hj, rfl⟩ := h
        have := ih j hj
        simp only [List.length_cons]
        omega

theorem keyIndex_getElem (k : String) :
    ∀ (l : List String) (i : Nat), keyIndex k l = some i →
      l.getD i "" = k := by
  intro l
  induction l with
  | nil => intro i h; simp [keyIndex] at h
  | cons s rest ih =>
      intro i h
      by_cases hs : s = k
      · simp only [keyIndex, if_pos hs, Option.some.injEq] at h
        subst h
        simpa using hs
      · simp only [keyIndex, hs, if_false, Option.map_eq_some'] at h
        obtain ⟨j, hj, rfl⟩ := h
        simpa using ih j hj

theorem keyIndex_append_of_none (k : String) :
    ∀ (l1 l2 : List String), keyIndex k l1 = none →
      keyIndex k (l1 ++ l2) = (keyIndex k l2).map (fun n => n + l1.length) := by
  intro l1
  induction l1 with
  | nil => intro l2 _; simp
  | cons s rest ih =>
      intro l2 h
      by_cases hs : s = k
      · simp [keyIndex, hs] at h
      · have h' : keyIndex k rest = none := by
          simp only [keyIndex, hs, if_false, Option.map_eq_none'] at h
          exact h
        show keyIndex k (s :: (rest ++ l2)) = _
        simp only [keyIndex, hs, if_false, ih l2 h', List.length_cons]
        cases hk : keyIndex k l2
        · simp
        · simp only [hk, Option.map_some', Option.some.injEq]
          omega

theorem keyIndex_append_of_some (k : String) :
    ∀ (l1 l2 : List String) (i : Nat), keyIndex k l1 = some i →
      keyIndex k (l1 ++ l2) = some i := by
  intro l1
  induction l1 with
  | nil => intro l2 i h; simp [keyIndex] at h
  | cons s rest ih =>
      intro l2 i h
      by_cases hs : s = k
      · simp only [keyIndex, if_pos hs, Option.some.injEq] at h
        subst h
        show keyIndex k (s :: (rest ++ l2)) = some 0
        simp [keyIndex, hs]
      · simp only [keyIndex, hs, if_false, Option.map_eq_some'] at h
        obtain ⟨j, hj, rfl⟩ := h
        show keyIndex k (s :: (rest ++ l2)) = _
        simp [keyIndex, hs, ih l2 j hj]

/-- The normalization `__init__` applies to the key `__new__` stored:
`resolvedDbName` factors through `registryKey`. -/
def extendDbName (secretKey : Bool) (s : String) : String :=
  if strEndsWith s ".pdb" || strEndsWith s ".json" then s
  else if secretKey then s ++ ".pdb" else s ++ ".json"

theorem resolvedDbName_eq_extend (secretKey : Bool) (dbName : Option String) :
    resolvedDbName secretKey dbName = extendDbName secretKey (registryKey dbName) := by
  match dbName with
  | none =>
      have h : (strEndsWith "database.pdb" ".pdb" || strEndsWith "database.pdb" ".json") = true := by
        decide
      simp [resolvedDbName, registryKey, extendDbName, h]
  | some s =>
      by_cases hs : s = ""
      · have h : (strEndsWith "database.pdb" ".pdb"
            || strEndsWith "database.pdb" ".json") = true := by
          decide
        simp [resolvedDbName, registryKey, extendDbName, hs, h]
      · simp [resolvedDbName, registryKey, extendDbName, hs]

/-! ## The cursor pipeline (`Cursor._apply_conditions`) -/

namespace Cursor

/-- Python truthiness of the `_skip` / `_limit` attribute: `None` and `0`
are falsy. -/
def truthyNat : Option Nat → Bool
  | none => false
  | some n => n != 0

/-- Python truthiness of the `_sorts` attribute: `None` and the empty list
are falsy. -/
def truthyList : Option (List (String × Int)) → Bool
  | none => false
  | some l => !l.isEmpty

/-- Lexicographic strict order on character lists by code point (Python's
`str < str`). -/
def charsLt : List Char → List Char → Bool
  | [], [] => false
  | [], _ :: _ => true
  | _ :: _, [] => false
  | c :: cs, d :: ds =>
      if c.toNat < d.toNat then true
      else if d.toNat < c.toNat then false
      else charsLt cs ds

/-- Python `<` on the sort-key values the engine compares (documents of one
collection carry homogeneous key types; incomparable pairs are modeled as
unordered). -/
def sortKeyLt : Value → Value → Bool
  | .int a, .int b => a < b
  | .str a, .str b => charsLt a.data b.data
  | .bool a, .bool b => !a && b
  | _, _ => false

/-- Insert `x` behind every already-placed document it does not strictly
precede: the insertion step of a stable sort. -/
def insertStable (lt : Doc → Doc → Bool) (x : Doc) : List Doc → List Doc
  | [] => [x]
  | y :: ys => if lt x y then x :: y :: ys else y :: insertStable lt x ys

/-- A stable sort on documents, modeling Python's `list.sort` (Timsort is
stable; any stable comparison sort computes the same list). -/
def sortStable (lt : Doc → Doc → Bool) (l : List Doc) : List Doc :=
  l.foldl (fun acc x => insertStable lt x acc) []

/-- One `documents.sort(key=lambda x: x[field], reverse=(direction == -1))`
pass: stable, ascending on the key, or descending when the direction is
`-1` (still stable — equal keys keep their order). -/
def pySortPass (s : String × Int) (docs : List Doc) : List Doc :=
  sortStable
    (fun a b =>
      if s.2 == -1 then sortKeyLt (pyGet b s.1) (pyGet a s.1)
      else sortKeyLt (pyGet a s.1) (pyGet b s.1))
    docs

/-- `for sort in self._sorts[::-1]: documents.sort(...)` — one stable pass
per sort key, applied in reverse list order. -/
def sortPasses (sorts : List (String × Int)) (docs : List Doc) : List Doc :=
  sorts.reverse.foldl (fun ds s => pySortPass s ds) docs

/-- `Cursor._apply_sort`: sorts only when `_sorts` is truthy. -/
def applySort (sorts : Option (List (String × Int))) (docs : List Doc) : List Doc :=
  if truthyList sorts then sortPasses (sorts.getD []) docs else docs

/-- `Cursor._apply_skip`: slices `documents[skip:]` only when `_skip` is
truthy. -/
def applySkip (skip : Option Nat) (docs : List Doc) : List Doc :=
  if truthyNat skip then docs.drop (skip.getD 0) else docs

/-- `Cursor._apply_limit`: slices `documents[:limit]` only when `_limit` is
truthy. -/
def applyLimit (lim : Option Nat) (docs : List Doc) : List Doc :=
  if truthyNat lim then docs.take (lim.getD 0) else docs

/-- `Cursor._apply_conditions`: sort, then skip, then limit. -/
def applyConditions (sorts : Option (List (String × Int))) (skip lim : Option Nat)
    (docs : List Doc) : List Doc :=
  applyLimit lim (applySkip skip (applySort sorts docs))

end Cursor

/-! ## The identifier generator (`pantherdb/ulid.py`) -/

namespace ULID

/-- `self.crockford_base32_characters`. -/
def crockfordBase32Characters : List Char :=
  "0123456789ABCDEFGHJKMNPQRSTVWXYZ".data

/-- `self.crockford_base32_characters[d]` for a five-bit group value. -/
def ulidChar (d : Nat) : Char :=
  crockfordBase32Characters.getD d ' '

/-- Fixed-width big-endian digit expansion in the given base: the digit
list of `'{0:0wb}'.format(v)` (as numbers) when `base = 2` and
`v < base ^ w` — the format string pads to `w` digits and every value the
generator formats fits its width. -/
def toDigits (base : Nat) : Nat → Nat → List Nat
  | 0, _ => []
  | w + 1, v => v / base ^ w :: toDigits base w (v % base ^ w)

/-- `int(ds, base)`: the value of a big-endian digit list. -/
def digitsVal (base : Nat) (ds : List Nat) : Nat :=
  ds.foldl (fun a d => base * a + d) 0

/-- `ULID._generate(bits)`: 26 characters, the i-th indexing the alphabet
with `int(bits[5 * i : 5 * i + 5], base=2)`. -/
def generate (bits : List Nat) : String :=
  ⟨(List.range 26).map (fun i => ulidChar (digitsVal 2 ((bits.drop (5 * i)).take 5)))⟩

/-- `ULID.new()`: `'{0:050b}'.format(timestamp) + '{0:080b}'.format(randbits)`
fed to `_generate`; the millisecond timestamp `t` and the 80 random bits
`r` are the generator's two inputs. -/
def new (t r : Nat) : String :=
  generate (toDigits 2 50 t ++ toDigits 2 80 r)

/-- The alphabet position of a character (its five-bit value). -/
def charVal (c : Char) : Nat :=
  crockfordBase32Characters.findIdx (fun d => d == c)

/-- Decoding an identifier back to the 130-bit number it spells. -/
def decode (s : String) : Nat :=
  digitsVal 32 (s.data.map charVal)

end ULID

/-! ## The plain-mode content codec (`PantherDB.write` / `PantherDB.reload`)

`write` serializes the whole content map with `orjson.dumps` (compact
JSON: `,` and `:` separators, no whitespace); `reload` reads the file and
feeds non-empty bytes to `orjson.loads`, while empty bytes yield an empty
content map. The codec below embeds that serialization for the modeled
value universe: the common escapes (`\"`, `\\`, `\n`, `\t`, `\r`) are
handled, other characters are carried literally. -/

namespace Codec

def isDigitChar (c : Char) : Bool :=
  48 ≤ c.toNat && c.toNat ≤ 57

def digitChar (d : Nat) : Char :=
  Char.ofNat (48 + d)

/-- Decimal digits of `n`, most significant first. -/
def natToChars (n : Nat) : List Char :=
  if _h : n < 10 then [digitChar n]
  else natToChars (n / 10) ++ [digitChar (n % 10)]
termination_by n
decreasing_by exact Nat.div_lt_self (by omega) (by omega)

/-- An integer's serialization: optional minus sign, then decimal digits. -/
def renderInt (i : Int) : List Char :=
  if i < 0 then '-' :: natToChars i.natAbs else natToChars i.natAbs

/-- One character, JSON-escaped. -/
def escapeChar (c : Char) : List Char :=
  if c = '"' then ['\\', '"']
  else if c = '\\' then ['\\', '\\']
  else if c = '\n' then ['\\', 'n']
  else if c = '\t' then ['\\', 't']
  else if c = '\r' then ['\\', 'r']
  else [c]

def escapeChars : List Char → List Char
  | [] => []
  | c :: cs => escapeChar c ++ escapeChars cs

/-- A string's serialization: quoted, characters escaped. -/
def renderString (s : String) : List Char :=
  '"' :: (escapeChars s.data ++ ['"'])

mutual

/-- Compact JSON serialization of a value (orjson's output format). -/
def renderValue : Value → List Char
  | .null => 'n' :: 'u' :: 'l' :: 'l' :: []
  | .bool true => 't' :: 'r' :: 'u' :: 'e' :: []
  | .bool false => 'f' :: 'a' :: 'l' :: 's' :: 'e' :: []
  | .int n => renderInt n
  | .str s => renderString s
  | .arr [] => ['[', ']']
  | .arr (e :: es) => '[' :: (renderValue e ++ (renderElemsRest es ++ [']']))
  | .obj [] => ['\x7b', '\x7d']
  | .obj (m :: ms) => '\x7b' :: (renderMember m ++ (renderMembersRest ms ++ ['\x7d']))

def renderElemsRest : List Value → List Char
  | [] => []
  | e :: es => ',' :: (renderValue e ++ renderElemsRest es)

def renderMember : String × Value → List Char
  | (k, v) => renderString k ++ ':' :: renderValue v

def renderMembersRest : List (String × Value) → List Char
  | [] => []
  | m :: ms => ',' :: (renderMember m ++ renderMembersRest ms)

end

def unescapeChar : Char → Option Char
  | '"' => some '"'
  | '\\' => some '\\'
  | 'n' => some '\n'
  | 't' => some '\t'
  | 'r' => some '\r'
  | _ => none

/-- Parse a string body after the opening quote. -/
def parseStringBody (acc : List Char) : List Char → Option (String × List Char)
  | [] => none
  | c :: rest =>
      if c = '"' then some (⟨acc.reverse⟩, rest)
      else if c = '\\' then
        match rest with
        | [] => none
        | e :: rest2 =>
            match unescapeChar e with
            | some c2 => parseStringBody (c2 :: acc) rest2
            | none => none
      else parseStringBody (c :: acc) rest

/-- Longest digit run at the head of the input. -/
def takeDigits : List Char → List Char × List Char
  | [] => ([], [])
  | c :: rest =>
      if isDigitChar c then
        let p := takeDigits rest
        (c :: p.1, p.2)
      else ([], c :: rest)

def digitsToNat (ds : List Char) : Nat :=
  ds.foldl (fun a c => 10 * a + (c.toNat - 48)) 0

/-- Parse an integer: optional minus sign, then a non-empty digit run. -/
def parseInt : List Char → Option (Int × List Char)
  | [] => none
  | c :: rest =>
      if c = '-' then
        let p := takeDigits rest
        if p.1.isEmpty then none else some (-(digitsToNat p.1 : Int), p.2)
      else
        let p := takeDigits (c :: rest)
        if p.1.isEmpty then none else some ((digitsToNat p.1 : Int), p.2)

mutual

/-- The JSON value parser, recursing on a fuel counter. -/
def parseValue (fuel : Nat) (cs : List Char) : Option (Value × List Char) :=
  match fuel with
  | 0 => none
  | fuel + 1 =>
      match cs with
      | [] => none
      | c :: r =>
          if c = 'n' then
            match r with
            | 'u' :: 'l' :: 'l' :: r2 => some (.null, r2)
            | _ => none
          else if c = 't' then
            match r with
            | 'r' :: 'u' :: 'e' :: r2 => some (.bool true, r2)
            | _ => none
          else if c = 'f' then
            match r with
            | 'a' :: 'l' :: 's' :: 'e' :: r2 => some (.bool false, r2)
            | _ => none
          else if c = '"' then
            match parseStringBody [] r with
            | some (s, r2) => some (.str s, r2)
            | none => none
          else if c = '[' then
            match r with
            | [] => none
            | c2 :: r2 =>
                if c2 = ']' then some (.arr [], r2)
                else
                  match parseValue fuel (c2 :: r2) with
                  | some (e, r3) =>
                      match parseElemsRest fuel r3 with
                      | some (es, r4) => some (.arr (e :: es), r4)
                      | none => none
                  | none => none
          else if c = '\x7b' then
            match r with
            | [] => none
            | c2 :: r2 =>
                if c2 = '\x7d' then some (.obj [], r2)
                else
                  match parseMember fuel (c2 :: r2) with
                  | some (m, r3) =>
                      match parseMembersRest fuel r3 with
                      | some (ms, r4) => some (.obj (m :: ms), r4)
                      | none => none
                  | none => none
          else
            match parseInt (c :: r) with
            | some (n, r2) => some (.int n, r2)
            | none => none

/-- After one array element: a comma starts the next element, a closing
bracket ends the array. -/
def parseElemsRest (fuel : Nat) (cs : List Char) : Option (List Value × List Char) :=
  match fuel with
  | 0 => none
  | fuel + 1 =>
      match cs with
      | ']' :: r => some ([], r)
      | ',' :: r =>
          match parseValue fuel r with
          | some (e, r2) =>
              match parseElemsRest fuel r2 with
              | some (es, r3) => some (e :: es, r3)
              | none => none
          | none => none
      | _ => none

/-- One `"key":value` member. -/
def parseMember (fuel : Nat) (cs : List Char) : Option ((String × Value) × List Char) :=
  match fuel with
  | 0 => none
  | fuel + 1 =>
      match cs with
      | '"' :: r =>
          match parseStringBody [] r with
          | some (k, r2) =>
              match r2 with
              | ':' :: r3 =>
                  match parseValue fuel r3 with
                  | some (v, r4) => some ((k, v), r4)
                  | none => none
              | _ => none
          | none => none
      | _ => none

/-- After one member: a comma starts the next member, a closing brace ends
the object. -/
def parseMembersRest (fuel : Nat) (cs : List Char) :
    Option (List (String × Value) × List Char) :=
  match fuel with
  | 0 => none
  | fuel + 1 =>
      match cs with
      | '\x7d' :: r => some ([], r)
      | ',' :: r =>
          match parseMember fuel r with
          | some (m, r2) =>
              match parseMembersRest fuel r2 with
              | some (ms, r3) => some (m :: ms, r3)
              | none => none
          | none => none
      | _ => none

end

/-- A remainder that cannot extend a digit run: empty, or headed by a
non-digit (every JSON delimiter qualifies). -/
def delim : List Char → Bool
  | [] => true
  | c :: _ => !isDigitChar c

/-- `PantherDB.write` in plain mode: `json.dumps(self.content)`. -/
def write (content : List (String × Value)) : List Char :=
  renderValue (.obj content)

/-- `PantherDB.reload` in plain mode: empty bytes give an empty content
map, non-empty bytes are `json.loads`-parsed (whole-input). -/
def reload (data : List Char) : Option Value :=
  if data.isEmpty then some (.obj [])
  else
    match parseValue (data.length + 1) data with
    | some (v, []) => some v
    | _ => none

end Codec

/-! ## Documents: `PantherDocument.save` -/

/-- The database's in-memory content map: collection name to document
list, ordered like the underlying JSON object. -/
abbrev ContentMap := List (String × List Doc)

namespace PantherDocument

/-- The scan loop of `PantherDocument.save`: walk the reloaded documents,
and at the first record whose `_id` equals the handle's id, pop it and
insert the handle's data at the same position, then stop. A scanned record
without an `_id` key makes `d['_id']` raise (`none`); a scan that finds no
match leaves the list unchanged. -/
def replaceById (selfId : Value) (newData : Doc) : List Doc → Option (List Doc)
  | [] => some []
  | d :: ds =>
      match assocGet d "_id" with
      | none => none
      | some v =>
          if v == selfId then some (newData :: ds)
          else (replaceById selfId newData ds).map (fun r => d :: r)

/-- `PantherDocument.save`: read the handle's id (`self._data['_id']`,
raising when absent), reload the origin collection's documents, replace
the record with that `_id` in place, and persist with
`_write_documents` (which reassigns only this collection's entry of the
content map) — the write happens whether or not a record matched. -/
def save (content : ContentMap) (name : String) (handleData : Doc) : Option ContentMap :=
  match assocGet handleData "_id" with
  | none => none
  | some selfId =>
      match replaceById selfId handleData ((assocGet content name).getD []) with
      | none => none
      | some docs => some (assocSet content name docs)

theorem replaceById_found (selfId : Value) (newData : Doc) (d0 : Doc) (post : List Doc) :
    ∀ pre : List Doc,
      (∀ d ∈ pre, ∃ v, assocGet d "_id" = some v ∧ v ≠ selfId) →
      assocGet d0 "_id" = some selfId →
      replaceById selfId newData (pre ++ d0 :: post) = some (pre ++ newData :: post) := by
  intro pre
  induction pre with
  | nil =>
      intro _ h0
      simp [replaceById, h0]
  | cons p pre ih =>
      intro hpre h0
      obtain ⟨v, hv, hvne⟩ := hpre p (List.mem_cons_self ..)
      have hne : (v == selfId) = false := by simpa using hvne
      show replaceById selfId newData (p :: (pre ++ d0 :: post)) = _
      simp [replaceById, hv, hne,
        ih (fun d hd => hpre d (List.mem_cons_of_mem _ hd)) h0]

theorem replaceById_not_found (selfId : Value) (newData : Doc) :
    ∀ docs : List Doc,
      (∀ d ∈ docs, ∃ v, assocGet d "_id" = some v ∧ v ≠ selfId) →
      replaceById selfId newData docs = some docs := by
  intro docs
  induction docs with
  | nil => intro _; rfl
  | cons d ds ih =>
      intro hds
      obtain ⟨v, hv, hvne⟩ := hds d (List.mem_cons_self ..)
      have hne : (v == selfId) = false := by simpa using hvne
      simp [replaceById, hv, hne, ih (fun x hx => hds x (List.mem_cons_of_mem _ hx))]

end PantherDocument

theorem assocGet_assocSet_ne {α : Type} (l : List (String × α)) (k k' : String) (v : α)
    (h : k' ≠ k) : assocGet (assocSet l k v) k' = assocGet l k' := by
  induction l with
  | nil =>
      have : (k == k') = false := by simpa using fun e => h e.symm
      simp [assocSet, assocGet, List.find?, this]
  | cons kv rest ih =>
      obtain ⟨k0, v0⟩ := kv
      by_cases h0 : k0 == k
      · have hkk' : (k == k') = false := by simpa using fun e => h e.symm
        have hk0 : k0 = k := by simpa using h0
        subst hk0
        simp [assocSet, assocGet, List.find?, hkk']
      · simp only [assocSet, h0, Bool.false_eq_true, if_false]
        by_cases h1 : k0 == k'
        · simp [assocGet, List.find?, h1]
        · simp only [assocGet, List.find?, h1] at ih ⊢
          exact ih

/-! ## Lemmas about the matching and deletion primitives -/

namespace PantherCollection

theorem findIndexesFrom_succ (f : Filter) (ds : List Doc) :
    ∀ i, findIndexesFrom f (i + 1) ds = (findIndexesFrom f i ds).map (fun n => n + 1) := by
  induction ds with
  | nil => intro i; rfl
  | cons d ds ih =>
      intro i
      by_cases h : matchesDoc d f <;>
        simp [findIndexesFrom, h, ih (i + 1)]

theorem findIndexesFrom_length (f : Filter) (ds : List Doc) :
    ∀ i, (findIndexesFrom f i ds).length = (ds.filter (fun d => matchesDoc d f)).length := by
  induction ds with
  | nil => intro i; rfl
  | cons d ds ih =>
      intro i
      by_cases h : matchesDoc d f <;>
        simp [findIndexesFrom, List.filter_cons, h, ih (i + 1)]

theorem findIndexesFrom_eq_nil (f : Filter) (ds : List Doc)
    (h : ∀ d ∈ ds, matchesDoc d f = false) : ∀ i, findIndexesFrom f i ds = [] := by
  induction ds with
  | nil => intro i; rfl
  | cons d ds ih =>
      intro i
      have hd : matchesDoc d f = false := h d (List.mem_cons_self ..)
      simp only [findIndexesFrom, hd, Bool.false_eq_true, if_false]
      exact ih (fun x hx => h x (List.mem_cons_of_mem _ hx)) (i + 1)

theorem foldl_eraseIdx_shift (is : List Nat) :
    ∀ (d : Doc) (ds : List Doc),
      (is.map (fun n => n + 1)).foldl (fun l i => l.eraseIdx i) (d :: ds)
        = d :: is.foldl (fun l i => l.eraseIdx i) ds := by
  induction is with
  | nil => intro d ds; rfl
  | cons i is ih =>
      intro d ds
      simp only [List.map_cons, List.foldl_cons, List.eraseIdx_cons_succ]
      exact ih d (ds.eraseIdx i)

/-- Popping the matched positions from the highest index down keeps exactly
the non-matching documents, in their original order. -/
theorem foldl_eraseIdx_findIndexes (f : Filter) (docs : List Doc) :
    (findIndexes f docs).reverse.foldl (fun l i => l.eraseIdx i) docs
      = docs.filter (fun d => ! matchesDoc d f) := by
  induction docs with
  | nil => rfl
  | cons d ds ih =>
      have hshift := findIndexesFrom_succ f ds 0
      norm_num at hshift
      by_cases h : matchesDoc d f
      · have hfi : findIndexes f (d :: ds) = 0 :: findIndexesFrom f 1 ds := by
          simp [findIndexes, findIndexesFrom, h]
        rw [hfi, List.reverse_cons, hshift, ← List.map_reverse,
          List.foldl_append, foldl_eraseIdx_shift]
        unfold findIndexes at ih
        rw [List.foldl_cons, List.foldl_nil, List.eraseIdx_cons_zero, ih, List.filter_cons]
        simp [h]
      · have hfi : findIndexes f (d :: ds) = findIndexesFrom f 1 ds := by
          simp [findIndexes, findIndexesFrom, h]
        rw [hfi, hshift, ← List.map_reverse, foldl_eraseIdx_shift]
        unfold findIndexes at ih
        rw [ih, List.filter_cons]
        simp [h]

theorem findIndexesFrom_append (f : Filter) (pre : List Doc) (m : Doc) (post : List Doc)
    (hpre : ∀ d ∈ pre, matchesDoc d f = false) (hm : matchesDoc m f = true) :
    ∀ i, findIndexesFrom f i (pre ++ m :: post)
      = (i + pre.length) :: findIndexesFrom f (i + pre.length + 1) post := by
  induction pre with
  | nil => intro i; simp [findIndexesFrom, hm]
  | cons p pre ih =>
      intro i
      have hp : matchesDoc p f = false := hpre p (List.mem_cons_self ..)
      show findIndexesFrom f i (p :: (pre ++ m :: post)) = _
      simp only [findIndexesFrom, hp, Bool.false_eq_true, if_false]
      rw [ih (fun x hx => hpre x (List.mem_cons_of_mem _ hx)) (i + 1)]
      simp only [List.length_cons]
      have h1 : i + 1 + pre.length = i + (pre.length + 1) := by omega
      rw [h1]

theorem eraseIdx_append_length (pre : List Doc) (m : Doc) (post : List Doc) :
    (pre ++ m :: post).eraseIdx pre.length = pre ++ post := by
  induction pre with
  | nil => rfl
  | cons p pre ih => simp [List.eraseIdx_cons_succ, ih]

end PantherCollection

/-! ## Lemmas about the ULID digit arithmetic -/

namespace ULID

theorem toDigits_length (b : Nat) : ∀ (w v : Nat), (toDigits b w v).length = w
  | 0, _ => rfl
  | w + 1, v => by simp [toDigits, toDigits_length b w]

theorem foldl_digits (b : Nat) :
    ∀ (ds : List Nat) (a : Nat),
      ds.foldl (fun x d => b * x + d) a = a * b ^ ds.length + digitsVal b ds := by
  intro ds
  induction ds with
  | nil => intro a; simp [digitsVal]
  | cons d ds ih =>
      intro a
      have hd : digitsVal b (d :: ds) = d * b ^ ds.length + digitsVal b ds := by
        show List.foldl _ (b * 0 + d) ds = _
        rw [ih (b * 0 + d)]
        ring
      rw [List.foldl_cons, ih (b * a + d), hd, List.length_cons]
      ring

theorem digitsVal_cons (b d : Nat) (ds : List Nat) :
    digitsVal b (d :: ds) = d * b ^ ds.length + digitsVal b ds := by
  show List.foldl _ (b * 0 + d) ds = _
  rw [foldl_digits b ds (b * 0 + d)]
  ring

theorem digitsVal_toDigits (b : Nat) : ∀ (w v : Nat), digitsVal b (toDigits b (w + 1) v) = v
  | 0, v => by simp [toDigits, digitsVal]
  | w + 1, v => by
      show digitsVal b (v / b ^ (w + 1) :: toDigits b (w + 1) (v % b ^ (w + 1))) = v
      rw [digitsVal_cons, toDigits_length, digitsVal_toDigits b w (v % b ^ (w + 1))]
      rw [Nat.mul_comm]
      exact Nat.div_add_mod v (b ^ (w + 1))

theorem toDigits_lt (b : Nat) (hb : 0 < b) :
    ∀ (w v : Nat), v < b ^ w → ∀ d ∈ toDigits b w v, d < b
  | 0, v, hv => by simp [toDigits]
  | w + 1, v, hv => by
      have hbw : 0 < b ^ w := Nat.pos_pow_of_pos w hb
      simp only [toDigits, List.mem_cons]
      rintro d (rfl | hd)
      · rw [Nat.div_lt_iff_lt_mul hbw]
        calc v < b ^ (w + 1) := hv
          _ = b * b ^ w := by rw [pow_succ, Nat.mul_comm]
      · exact toDigits_lt b hb w (v % b ^ w) (Nat.mod_lt _ hbw) d hd

theorem toDigits_split (b : Nat) (hb : 0 < b) (w2 : Nat) :
    ∀ (w1 v : Nat), v < b ^ (w1 + w2) →
      toDigits b (w1 + w2) v = toDigits b w1 (v / b ^ w2) ++ toDigits b w2 (v % b ^ w2) := by
  intro w1
  induction w1 with
  | zero =>
      intro v hv
      rw [Nat.zero_add] at hv ⊢
      rw [Nat.div_eq_of_lt hv, Nat.mod_eq_of_lt hv]
      rfl
  | succ w1 ih =>
      intro v hv
      have hpos : 0 < b ^ (w1 + w2) := Nat.pos_pow_of_pos _ hb
      have hrw : w1 + 1 + w2 = (w1 + w2) + 1 := by omega
      rw [hrw] at hv ⊢
      show toDigits b ((w1 + w2) + 1) v = toDigits b (w1 + 1) (v / b ^ w2) ++ _
      simp only [toDigits]
      rw [ih (v % b ^ (w1 + w2)) (Nat.mod_lt _ hpos)]
      have hhead : v / b ^ (w1 + w2) = v / b ^ w2 / b ^ w1 := by
        rw [Nat.div_div_eq_div_mul, ← pow_add, Nat.add_comm w2 w1]
      have hdiv : v % b ^ (w1 + w2) / b ^ w2 = v / b ^ w2 % b ^ w1 := by
        have : b ^ (w1 + w2) = b ^ w2 * b ^ w1 := by rw [← pow_add, Nat.add_comm w2 w1]
        rw [this, Nat.mod_mul_right_div_self]
      have hmod : v % b ^ (w1 + w2) % b ^ w2 = v % b ^ w2 :=
        Nat.mod_mod_of_dvd v (pow_dvd_pow b (by omega))
      rw [hhead, hdiv, hmod]
      rfl

theorem toDigits_drop (b : Nat) (hb : 0 < b) (w1 w2 v : Nat) (hv : v < b ^ (w1 + w2)) :
    (toDigits b (w1 + w2) v).drop w1 = toDigits b w2 (v % b ^ w2) := by
  rw [toDigits_split b hb w2 w1 v hv, List.drop_left' (toDigits_length b w1 (v / b ^ w2))]

theorem toDigits_take (b : Nat) (hb : 0 < b) (w1 w2 v : Nat) (hv : v < b ^ (w1 + w2)) :
    (toDigits b (w1 + w2) v).take w1 = toDigits b w1 (v / b ^ w2) := by
  rw [toDigits_split b hb w2 w1 v hv, List.take_left' (toDigits_length b w1 (v / b ^ w2))]

theorem toDigits_eq_range (b : Nat) (hb : 0 < b) :
    ∀ (w v : Nat), v < b ^ w →
      toDigits b w v = (List.range w).map (fun i => v / b ^ (w - 1 - i) % b) := by
  intro w
  induction w with
  | zero => intro v hv; rfl
  | succ w ih =>
      intro v hv
      have hbw : 0 < b ^ w := Nat.pos_pow_of_pos w hb
      simp only [toDigits]
      rw [List.range_succ_eq_map, List.map_cons, List.map_map]
      congr 1
      · have hlt : v / b ^ w < b := by
          rw [Nat.div_lt_iff_lt_mul hbw]
          calc v < b ^ (w + 1) := hv
            _ = b * b ^ w := by rw [pow_succ, Nat.mul_comm]
        exact (Nat.mod_eq_of_lt hlt).symm
      · rw [ih (v % b ^ w) (Nat.mod_lt _ hbw)]
        apply List.map_congr_left
        intro i hi
        have hi' : i < w := List.mem_range.mp hi
        simp only [Function.comp]
        have hsplit : b ^ w = b ^ (w - 1 - i) * b ^ (i + 1) := by
          rw [← pow_add]
          congr 1
          omega
        rw [hsplit, Nat.mod_mul_right_div_self,
          Nat.mod_mod_of_dvd _ (dvd_pow_self b (by omega : i + 1 ≠ 0))]
        have hexp : w - 1 - i = w + 1 - 1 - (i + 1) := by omega
        rw [hexp]

theorem lex_toDigits (b : Nat) (hb : 0 < b) :
    ∀ (w a v : Nat), a < v → v < b ^ w →
      List.Lex (· < ·) (toDigits b w a) (toDigits b w v) := by
  intro w
  induction w with
  | zero =>
      intro a v hav hv
      simp at hv
      omega
  | succ w ih =>
      intro a v hav hv
      have hbw : 0 < b ^ w := Nat.pos_pow_of_pos w hb
      simp only [toDigits]
      rcases Nat.lt_trichotomy (a / b ^ w) (v / b ^ w) with h | h | h
      · exact List.Lex.rel h
      · have ha' : a % b ^ w < v % b ^ w := by
          have da := Nat.div_add_mod a (b ^ w)
          have dv := Nat.div_add_mod v (b ^ w)
          rw [h] at da
          omega
        rw [h]
        exact List.Lex.cons (ih (a % b ^ w) (v % b ^ w) ha' (Nat.mod_lt _ hbw))
      · have hle : a / b ^ w ≤ v / b ^ w := Nat.div_le_div_right (Nat.le_of_lt hav)
        omega

/-- The alphabet is listed in strictly increasing code-point order, so the
digit-to-character map is strictly monotone on five-bit values. -/
theorem ulidChar_lt : ∀ a b : Fin 32, a.val < b.val → ulidChar a.val < ulidChar b.val := by
  decide

/-- Every five-bit value maps into the alphabet. -/
theorem ulidChar_mem : ∀ d : Fin 32, ulidChar d.val ∈ crockfordBase32Characters := by
  decide

/-- Decoding a character undoes encoding a five-bit value. -/
theorem charVal_ulidChar : ∀ d : Fin 32, charVal (ulidChar d.val) = d.val := by
  decide

theorem lex_map_ulidChar :
    ∀ {l1 l2 : List Nat}, List.Lex (· < ·) l1 l2 →
      (∀ d ∈ l1, d < 32) → (∀ d ∈ l2, d < 32) →
      List.Lex (· < ·) (l1.map ulidChar) (l2.map ulidChar) := by
  intro l1 l2 h
  induction h with
  | nil =>
      intro _ _
      simp only [List.map_nil, List.map_cons]
      exact List.Lex.nil
  | cons h ih =>
      intro h1 h2
      simp only [List.map_cons]
      exact List.Lex.cons (ih (fun d hd => h1 d (List.mem_cons_of_mem _ hd))
        (fun d hd => h2 d (List.mem_cons_of_mem _ hd)))
  | rel hab =>
      intro h1 h2
      simp only [List.map_cons]
      refine List.Lex.rel ?_
      exact ulidChar_lt ⟨_, h1 _ (List.mem_cons_self ..)⟩ ⟨_, h2 _ (List.mem_cons_self ..)⟩ hab

theorem ulidN_lt (t r : Nat) (ht : t < 2 ^ 50) (hr : r < 2 ^ 80) :
    t * 2 ^ 80 + r < 2 ^ 130 := by
  have h1 : t * 2 ^ 80 + r < (t + 1) * 2 ^ 80 := by
    have e : (t + 1) * 2 ^ 80 = t * 2 ^ 80 + 2 ^ 80 := by ring
    rw [e]
    exact Nat.add_lt_add_left hr _
  have h2 : (t + 1) * 2 ^ 80 ≤ 2 ^ 50 * 2 ^ 80 := Nat.mul_le_mul_right _ ht
  have h3 : (2 : Nat) ^ 50 * 2 ^ 80 = 2 ^ 130 := by rw [← pow_add]
  omega

theorem new_eq_toDigits (t r : Nat) (ht : t < 2 ^ 50) (hr : r < 2 ^ 80) :
    ULID.new t r = generate (toDigits 2 130 (t * 2 ^ 80 + r)) := by
  unfold ULID.new
  congr 1
  have hN : t * 2 ^ 80 + r < 2 ^ 130 := ulidN_lt t r ht hr
  have hsplit := toDigits_split 2 (by norm_num) 80 50 (t * 2 ^ 80 + r)
    (by norm_num at hN ⊢; omega)
  have hdiv : (t * 2 ^ 80 + r) / 2 ^ 80 = t := by
    rw [Nat.mul_comm t, Nat.mul_add_div (Nat.pos_pow_of_pos _ (by norm_num)),
      Nat.div_eq_of_lt hr, Nat.add_zero]
  have hmod : (t * 2 ^ 80 + r) % 2 ^ 80 = r := by
    rw [Nat.mul_comm t, Nat.mul_add_mod]
    exact Nat.mod_eq_of_lt hr
  rw [show (130 : Nat) = 50 + 80 from rfl, hsplit, hdiv, hmod]

theorem generate_toDigits (N : Nat) (hN : N < 2 ^ 130) :
    generate (toDigits 2 130 N) = ⟨(toDigits 32 26 N).map ulidChar⟩ := by
  have h3226 : (32 : Nat) ^ 26 = 2 ^ 130 := by
    rw [show (32 : Nat) = 2 ^ 5 from rfl, ← pow_mul]
  unfold generate
  congr 1
  rw [toDigits_eq_range 32 (by norm_num) 26 N (by rw [h3226]; exact hN), List.map_map]
  apply List.map_congr_left
  intro i hi
  have hi' : i < 26 := List.mem_range.mp hi
  simp only [Function.comp]
  congr 1
  have h130 : (130 : Nat) = 5 * i + (130 - 5 * i) := by omega
  have hd : (toDigits 2 130 N).drop (5 * i) = toDigits 2 (130 - 5 * i) (N % 2 ^ (130 - 5 * i)) := by
    have h := toDigits_drop 2 (by norm_num) (5 * i) (130 - 5 * i) N (by rw [← h130]; exact hN)
    rw [← h130] at h
    exact h
  rw [hd]
  have hmlt : N % 2 ^ (130 - 5 * i) < 2 ^ (130 - 5 * i) :=
    Nat.mod_lt _ (Nat.pos_pow_of_pos _ (by norm_num))
  have hsub : 130 - 5 * i = 5 + (125 - 5 * i) := by omega
  have ht : (toDigits 2 (130 - 5 * i) (N % 2 ^ (130 - 5 * i))).take 5
      = toDigits 2 5 (N % 2 ^ (130 - 5 * i) / 2 ^ (125 - 5 * i)) := by
    have h := toDigits_take 2 (by norm_num) 5 (125 - 5 * i) (N % 2 ^ (130 - 5 * i))
      (by rw [← hsub]; exact hmlt)
    rw [← hsub] at h
    exact h
  rw [ht]
  have h5 := digitsVal_toDigits 2 4 (N % 2 ^ (130 - 5 * i) / 2 ^ (125 - 5 * i))
  norm_num at h5
  rw [h5]
  have hmul : (2 : Nat) ^ (130 - 5 * i) = 2 ^ (125 - 5 * i) * 2 ^ 5 := by
    rw [← pow_add]
    congr 1
    omega
  rw [hmul, Nat.mod_mul_right_div_self]
  have hexp : (32 : Nat) ^ (26 - 1 - i) = 2 ^ (125 - 5 * i) := by
    rw [show (32 : Nat) = 2 ^ 5 from rfl, ← pow_mul]
    congr 1
    omega
  rw [hexp]
  rfl

end ULID

/-! ## Lemmas about the content codec -/

namespace Codec

theorem digitChar_spec (d : Nat) (h : d < 10) :
    isDigitChar (digitChar d) = true ∧ (digitChar d).toNat = 48 + d ∧
    digitChar d ≠ '-' ∧ digitChar d ≠ 'n' ∧ digitChar d ≠ 't' ∧
    digitChar d ≠ 'f' ∧ digitChar d ≠ '"' ∧ digitChar d ≠ '[' ∧
    digitChar d ≠ '\x7b' ∧ digitChar d ≠ ']' := by
  have hall : ∀ k : Fin 10,
      isDigitChar (digitChar k.val) = true ∧ (digitChar k.val).toNat = 48 + k.val ∧
      digitChar k.val ≠ '-' ∧ digitChar k.val ≠ 'n' ∧ digitChar k.val ≠ 't' ∧
      digitChar k.val ≠ 'f' ∧ digitChar k.val ≠ '"' ∧ digitChar k.val ≠ '[' ∧
      digitChar k.val ≠ '\x7b' ∧ digitChar k.val ≠ ']' := by
    decide
  exact hall ⟨d, h⟩

theorem natToChars_digits (n : Nat) : ∀ c ∈ natToChars n, isDigitChar c = true := by
  induction n using Nat.strongRecOn with
  | _ n ih =>
    rw [natToChars]
    by_cases h : n < 10
    · simp only [dif_pos h]
      intro c hc
      rw [List.mem_singleton] at hc
      subst hc
      exact (digitChar_spec n h).1
    · simp only [dif_neg h]
      intro c hc
      rw [List.mem_append] at hc
      rcases hc with hc | hc
      · exact ih (n / 10) (Nat.div_lt_self (by omega) (by omega)) c hc
      · rw [List.mem_singleton] at hc
        subst hc
        exact (digitChar_spec (n % 10) (Nat.mod_lt _ (by omega))).1

theorem natToChars_ne_nil (n : Nat) : natToChars n ≠ [] := by
  rw [natToChars]
  by_cases h : n < 10 <;> simp [h]

theorem natToChars_head (n : Nat) :
    ∃ c t, natToChars n = c :: t ∧ isDigitChar c = true := by
  match hnc : natToChars n with
  | [] => exact absurd hnc (natToChars_ne_nil n)
  | c :: t => exact ⟨c, t, rfl, natToChars_digits n c (hnc ▸ List.mem_cons_self ..)⟩

theorem digitsToNat_natToChars (n : Nat) : digitsToNat (natToChars n) = n := by
  induction n using Nat.strongRecOn with
  | _ n ih =>
    rw [natToChars]
    by_cases h : n < 10
    · simp only [dif_pos h]
      show 10 * 0 + ((digitChar n).toNat - 48) = n
      rw [(digitChar_spec n h).2.1]
      omega
    · simp only [dif_neg h]
      have ihd := ih (n / 10) (Nat.div_lt_self (by omega) (by omega))
      simp only [digitsToNat] at ihd ⊢
      rw [List.foldl_append, ihd, List.foldl_cons, List.foldl_nil,
        (digitChar_spec (n % 10) (Nat.mod_lt _ (by omega))).2.1]
      omega

theorem takeDigits_stop (cs : List Char) (h : delim cs = true) :
    takeDigits cs = ([], cs) := by
  match cs with
  | [] => rfl
  | c :: t =>
      have hc : isDigitChar c = false := by simpa [delim] using h
      simp [takeDigits, hc]

theorem takeDigits_run : ∀ (run tail : List Char),
    (∀ c ∈ run, isDigitChar c = true) → takeDigits tail = ([], tail) →
    takeDigits (run ++ tail) = (run, tail) := by
  intro run tail hrun htail
  induction run with
  | nil => simpa using htail
  | cons d dr ih =>
      have hd : isDigitChar d = true := hrun d (List.mem_cons_self ..)
      have hdr : takeDigits (dr ++ tail) = (dr, tail) :=
        ih (fun x hx => hrun x (List.mem_cons_of_mem _ hx))
      simp [takeDigits, hd, hdr]

theorem parseInt_render (i : Int) (rest : List Char) (hrest : delim rest = true) :
    parseInt (renderInt i ++ rest) = some (i, rest) := by
  by_cases hi : i < 0
  · have harg : renderInt i ++ rest = '-' :: (natToChars i.natAbs ++ rest) := by
      simp [renderInt, hi]
    rw [harg]
    show parseInt ('-' :: (natToChars i.natAbs ++ rest)) = _
    simp only [parseInt, if_pos rfl]
    rw [takeDigits_run _ rest (natToChars_digits _) (takeDigits_stop rest hrest)]
    have hne : (natToChars i.natAbs).isEmpty = false := by
      simp [List.isEmpty_iff, natToChars_ne_nil]
    have hdv : digitsToNat (natToChars i.natAbs) = i.natAbs := digitsToNat_natToChars _
    simp only [hne, Bool.false_eq_true, if_false, hdv, if_true, ite_true,
      Option.some.injEq, Prod.mk.injEq, and_true]
    omega
  · obtain ⟨c, t, hct, hc⟩ := natToChars_head i.natAbs
    have harg : renderInt i ++ rest = c :: (t ++ rest) := by
      simp [renderInt, hi, hct]
    rw [harg]
    have hcm : c ≠ '-' := by
      intro he
      subst he
      exact absurd hc (by decide)
    have htd : takeDigits (c :: (t ++ rest)) = (c :: t, rest) := by
      have h := takeDigits_run (c :: t) rest (by rw [← hct]; exact natToChars_digits _)
        (takeDigits_stop rest hrest)
      simpa using h
    simp only [parseInt, if_neg hcm, htd]
    have hdv : digitsToNat (c :: t) = i.natAbs := by
      rw [← hct]
      exact digitsToNat_natToChars _
    simp only [List.isEmpty_cons, Bool.false_eq_true, if_false, hdv,
      Option.some.injEq, Prod.mk.injEq, and_true]
    exact Int.natAbs_of_nonneg (by omega)

theorem parseStringBody_cons (acc : List Char) (c : Char) (rest : List Char) :
    parseStringBody acc (c :: rest)
      = if c = '"' then some (⟨acc.reverse⟩, rest)
        else if c = '\\' then
          match rest with
          | [] => none
          | e :: rest2 =>
              match unescapeChar e with
              | some c2 => parseStringBody (c2 :: acc) rest2
              | none => none
        else parseStringBody (c :: acc) rest := by
  conv_lhs => unfold parseStringBody

theorem parseStringBody_escape (c : Char) (acc rest : List Char) :
    parseStringBody acc (escapeChar c ++ rest) = parseStringBody (c :: acc) rest := by
  by_cases h1 : c = '"'
  · subst h1; rfl
  · by_cases h2 : c = '\\'
    · subst h2; rfl
    · by_cases h3 : c = '\n'
      · subst h3; rfl
      · by_cases h4 : c = '\t'
        · subst h4; rfl
        · by_cases h5 : c = '\r'
          · subst h5; rfl
          · have he : escapeChar c = [c] := by
              simp [escapeChar, h1, h2, h3, h4, h5]
            rw [he, List.singleton_append, parseStringBody_cons, if_neg h1, if_neg h2]

theorem parseStringBody_chars (cs : List Char) : ∀ (acc rest : List Char),
    parseStringBody acc (escapeChars cs ++ '"' :: rest)
      = some (⟨acc.reverse ++ cs⟩, rest) := by
  induction cs with
  | nil =>
      intro acc rest
      show parseStringBody acc ('"' :: rest) = _
      rw [parseStringBody_cons, if_pos rfl]
      simp
  | cons c cs ih =>
      intro acc rest
      show parseStringBody acc ((escapeChar c ++ escapeChars cs) ++ '"' :: rest) = _
      rw [List.append_assoc, parseStringBody_escape, ih (c :: acc) rest]
      simp

theorem parseString_render (s : String) (rest : List Char) :
    parseStringBody [] (escapeChars s.data ++ '"' :: rest) = some (s, rest) := by
  rw [parseStringBody_chars]
  simp only [List.reverse_nil, List.nil_append]

theorem delim_cons (c : Char) (r : List Char) : delim (c :: r) = !isDigitChar c := rfl

theorem digit_not_special {c : Char} (h : isDigitChar c = true) :
    c ≠ 'n' ∧ c ≠ 't' ∧ c ≠ 'f' ∧ c ≠ '"' ∧ c ≠ '[' ∧ c ≠ '\x7b' ∧ c ≠ ']' ∧ c ≠ '-' := by
  refine ⟨?_, ?_, ?_, ?_, ?_, ?_, ?_, ?_⟩ <;>
    (intro he; subst he; exact absurd h (by decide))

theorem parseValue_null_eq (f : Nat) (r : List Char) :
    parseValue (f + 1) ('n' :: 'u' :: 'l' :: 'l' :: r) = some (.null, r) := by
  simp only [parseValue]
  rfl

theorem parseValue_true_eq (f : Nat) (r : List Char) :
    parseValue (f + 1) ('t' :: 'r' :: 'u' :: 'e' :: r) = some (.bool true, r) := by
  simp only [parseValue]
  rfl

theorem parseValue_false_eq (f : Nat) (r : List Char) :
    parseValue (f + 1) ('f' :: 'a' :: 'l' :: 's' :: 'e' :: r) = some (.bool false, r) := by
  simp only [parseValue]
  rfl

theorem parseValue_quote_eq (f : Nat) (r : List Char) :
    parseValue (f + 1) ('"' :: r)
      = match parseStringBody [] r with
        | some (s, r2) => some (.str s, r2)
        | none => none := by
  simp only [parseValue]
  rfl

theorem parseValue_lbracket_eq (f : Nat) (c2 : Char) (r2 : List Char) :
    parseValue (f + 1) ('[' :: c2 :: r2)
      = if c2 = ']' then some (.arr [], r2)
        else
          match parseValue f (c2 :: r2) with
          | some (e, r3) =>
              match parseElemsRest f r3 with
              | some (es, r4) => some (.arr (e :: es), r4)
              | none => none
          | none => none := by
  simp only [parseValue]
  rfl

theorem parseValue_lbrace_eq (f : Nat) (c2 : Char) (r2 : List Char) :
    parseValue (f + 1) ('\x7b' :: c2 :: r2)
      = if c2 = '\x7d' then some (.obj [], r2)
        else
          match parseMember f (c2 :: r2) with
          | some (m, r3) =>
              match parseMembersRest f r3 with
              | some (ms, r4) => some (.obj (m :: ms), r4)
              | none => none
          | none => none := by
  simp only [parseValue]
  rfl

theorem parseValue_other_eq (f : Nat) (c : Char) (r : List Char)
    (h1 : c ≠ 'n') (h2 : c ≠ 't') (h3 : c ≠ 'f') (h4 : c ≠ '"')
    (h5 : c ≠ '[') (h6 : c ≠ '\x7b') :
    parseValue (f + 1) (c :: r)
      = match parseInt (c :: r) with
        | some (n, r2) => some (.int n, r2)
        | none => none := by
  simp only [parseValue]
  rw [if_neg h1, if_neg h2, if_neg h3, if_neg h4, if_neg h5, if_neg h6]

theorem parseElemsRest_rbracket_eq (f : Nat) (r : List Char) :
    parseElemsRest (f + 1) (']' :: r) = some ([], r) := by
  simp only [parseElemsRest]

theorem parseElemsRest_comma_eq (f : Nat) (r : List Char) :
    parseElemsRest (f + 1) (',' :: r)
      = match parseValue f r with
        | some (e, r2) =>
            match parseElemsRest f r2 with
            | some (es, r3) => some (e :: es, r3)
            | none => none
        | none => none := by
  simp only [parseElemsRest]

theorem parseMember_quote_eq (f : Nat) (r : List Char) :
    parseMember (f + 1) ('"' :: r)
      = match parseStringBody [] r with
        | some (k, r2) =>
            match r2 with
            | ':' :: r3 =>
                match parseValue f r3 with
                | some (v, r4) => some ((k, v), r4)
                | none => none
            | _ => none
        | none => none := by
  simp only [parseMember]

theorem parseMembersRest_rbrace_eq (f : Nat) (r : List Char) :
    parseMembersRest (f + 1) ('\x7d' :: r) = some ([], r) := by
  simp only [parseMembersRest]

theorem parseMembersRest_comma_eq (f : Nat) (r : List Char) :
    parseMembersRest (f + 1) (',' :: r)
      = match parseMember f r with
        | some (m, r2) =>
            match parseMembersRest f r2 with
            | some (ms, r3) => some (m :: ms, r3)
            | none => none
        | none => none := by
  simp only [parseMembersRest]

/-- Every rendered value starts with a character that is not `]` (so the
array branch's empty-array lookahead never fires on a real element). -/
theorem renderValue_head (v : Value) :
    ∃ c t, renderValue v = c :: t ∧ c ≠ ']' := by
  cases v with
  | null => exact ⟨'n', _, rfl, by decide⟩
  | bool b =>
      cases b with
      | true => exact ⟨'t', _, rfl, by decide⟩
      | false => exact ⟨'f', _, rfl, by decide⟩
  | int n =>
      by_cases hn : n < 0
      · refine ⟨'-', natToChars n.natAbs, ?_, by decide⟩
        simp [renderValue, renderInt, hn]
      · obtain ⟨c, t, hct, hc⟩ := natToChars_head n.natAbs
        refine ⟨c, t, ?_, (digit_not_special hc).2.2.2.2.2.2.1⟩
        simp [renderValue, renderInt, hn, hct]
  | str s => exact ⟨'"', _, rfl, by decide⟩
  | arr es =>
      cases es with
      | nil => exact ⟨'[', _, rfl, by decide⟩
      | cons e es => exact ⟨'[', _, rfl, by decide⟩
  | obj ms =>
      cases ms with
      | nil => exact ⟨'\x7b', _, rfl, by decide⟩
      | cons m ms => exact ⟨'\x7b', _, rfl, by decide⟩

theorem delim_renderElemsRest (es : List Value) (rest : List Char) :
    delim (renderElemsRest es ++ ']' :: rest) = true := by
  cases es with
  | nil =>
      rw [renderElemsRest, List.nil_append, delim_cons]
      decide
  | cons e es =>
      rw [renderElemsRest, List.cons_append, delim_cons]
      decide

theorem delim_renderMembersRest (ms : List (String × Value)) (rest : List Char) :
    delim (renderMembersRest ms ++ '\x7d' :: rest) = true := by
  cases ms with
  | nil =>
      rw [renderMembersRest, List.nil_append, delim_cons]
      decide
  | cons m ms =>
      rw [renderMembersRest, List.cons_append, delim_cons]
      decide

mutual

/-- Parsing a rendered value consumes exactly it and returns it. -/
theorem rt_val : ∀ (v : Value) (fuel : Nat) (rest : List Char),
    (renderValue v).length < fuel → delim rest = true →
    parseValue fuel (renderValue v ++ rest) = some (v, rest)
  | .null, fuel, rest, hf, _ => by
      cases fuel with
      | zero => exact absurd hf (by omega)
      | succ f =>
          show parseValue (f + 1) ('n' :: 'u' :: 'l' :: 'l' :: rest) = some (.null, rest)
          exact parseValue_null_eq f rest
  | .bool true, fuel, rest, hf, _ => by
      cases fuel with
      | zero => exact absurd hf (by omega)
      | succ f =>
          show parseValue (f + 1) ('t' :: 'r' :: 'u' :: 'e' :: rest) = some (.bool true, rest)
          exact parseValue_true_eq f rest
  | .bool false, fuel, rest, hf, _ => by
      cases fuel with
      | zero => exact absurd hf (by omega)
      | succ f =>
          show parseValue (f + 1) ('f' :: 'a' :: 'l' :: 's' :: 'e' :: rest)
            = some (.bool false, rest)
          exact parseValue_false_eq f rest
  | .int n, fuel, rest, hf, hrest => by
      cases fuel with
      | zero => exact absurd hf (by omega)
      | succ f =>
          by_cases hn : n < 0
          · have harg : renderValue (.int n) ++ rest = '-' :: (natToChars n.natAbs ++ rest) := by
              simp [renderValue, renderInt, hn]
            rw [harg, parseValue_other_eq f '-' _ (by decide) (by decide) (by decide)
              (by decide) (by decide) (by decide)]
            have hpi : parseInt ('-' :: (natToChars n.natAbs ++ rest)) = some (n, rest) := by
              rw [← harg]
              exact parseInt_render n rest hrest
            rw [hpi]
          · obtain ⟨c, t, hct, hc⟩ := natToChars_head n.natAbs
            obtain ⟨hn1, hn2, hn3, hn4, hn5, hn6, _, _⟩ := digit_not_special hc
            have harg : renderValue (.int n) ++ rest = c :: (t ++ rest) := by
              simp [renderValue, renderInt, hn, hct]
            rw [harg, parseValue_other_eq f c _ hn1 hn2 hn3 hn4 hn5 hn6]
            have hpi : parseInt (c :: (t ++ rest)) = some (n, rest) := by
              rw [← harg]
              exact parseInt_render n rest hrest
            rw [hpi]
  | .str s, fuel, rest, hf, _ => by
      cases fuel with
      | zero => exact absurd hf (by omega)
      | succ f =>
          have harg : renderValue (.str s) ++ rest
              = '"' :: (escapeChars s.data ++ ('"' :: rest)) := by
            simp [renderValue, renderString]
          rw [harg, parseValue_quote_eq, parseString_render]
  | .arr [], fuel, rest, hf, _ => by
      cases fuel with
      | zero => exact absurd hf (by omega)
      | succ f =>
          show parseValue (f + 1) ('[' :: ']' :: rest) = some (.arr [], rest)
          rw [parseValue_lbracket_eq, if_pos rfl]
  | .arr (e :: es), fuel, rest, hf, hrest => by
      cases fuel with
      | zero => exact absurd hf (by omega)
      | succ f =>
          obtain ⟨c, t, hct, hc⟩ := renderValue_head e
          have hflen := hf
          simp only [renderValue, List.length_cons, List.length_append] at hflen
          have hfe : (renderValue e).length < f := by omega
          have hfes : (renderElemsRest es).length < f := by omega
          have hv := rt_val e f (renderElemsRest es ++ ']' :: rest) hfe
            (delim_renderElemsRest es rest)
          have hes := rt_elems es f rest hfes hrest
          have harg : renderValue (.arr (e :: es)) ++ rest
              = '[' :: (c :: (t ++ (renderElemsRest es ++ ']' :: rest))) := by
            simp [renderValue, hct, List.append_assoc]
          have hargs : c :: (t ++ (renderElemsRest es ++ ']' :: rest))
              = renderValue e ++ (renderElemsRest es ++ ']' :: rest) := by
            rw [hct]
            rfl
          rw [harg, parseValue_lbracket_eq, if_neg hc, hargs]
          simp only [hv, hes]
  | .obj [], fuel, rest, hf, _ => by
      cases fuel with
      | zero => exact absurd hf (by omega)
      | succ f =>
          show parseValue (f + 1) ('\x7b' :: '\x7d' :: rest) = some (.obj [], rest)
          rw [parseValue_lbrace_eq, if_pos rfl]
  | .obj (m :: ms), fuel, rest, hf, hrest => by
      cases fuel with
      | zero => exact absurd hf (by omega)
      | succ f =>
          have hflen := hf
          simp only [renderValue, List.length_cons, List.length_append] at hflen
          have hfm : (renderMember m).length < f := by omega
          have hfms : (renderMembersRest ms).length < f := by omega
          have hm := rt_member m f (renderMembersRest ms ++ '\x7d' :: rest) hfm
            (delim_renderMembersRest ms rest)
          have hms := rt_members ms f rest hfms hrest
          obtain ⟨k, v⟩ := m
          have hmt : renderMember (k, v)
              = '"' :: (escapeChars k.data ++ ['"'] ++ (':' :: renderValue v)) := by
            simp [renderMember, renderString]
          have harg : renderValue (.obj ((k, v) :: ms)) ++ rest
              = '\x7b' :: ('"' :: ((escapeChars k.data ++ ['"'] ++ (':' :: renderValue v))
                  ++ (renderMembersRest ms ++ '\x7d' :: rest))) := by
            simp [renderValue, hmt, List.append_assoc]
          have hargs : '"' :: ((escapeChars k.data ++ ['"'] ++ (':' :: renderValue v))
                  ++ (renderMembersRest ms ++ '\x7d' :: rest))
              = renderMember (k, v) ++ (renderMembersRest ms ++ '\x7d' :: rest) := by
            rw [hmt]
            rfl
          rw [harg, parseValue_lbrace_eq, if_neg (by decide : ¬ ('"' = '\x7d')), hargs]
          simp only [hm, hms]
  termination_by v _ _ _ _ => sizeOf v

/-- Parsing one rendered `"key":value` member recovers it. -/
theorem rt_member : ∀ (m : String × Value) (fuel : Nat) (rest : List Char),
    (renderMember m).length < fuel → delim rest = true →
    parseMember fuel (renderMember m ++ rest) = some (m, rest)
  | (k, v), fuel, rest, hf, hrest => by
      cases fuel with
      | zero => exact absurd hf (by omega)
      | succ f =>
          have hfv : (renderValue v).length < f := by
            have h := hf
            simp only [renderMember, renderString, List.length_append, List.length_cons] at h
            omega
          have hv := rt_val v f rest hfv hrest
          have harg : renderMember (k, v) ++ rest
              = '"' :: (escapeChars k.data ++ ('"' :: (':' :: (renderValue v ++ rest)))) := by
            simp [renderMember, renderString, List.append_assoc]
          rw [harg, parseMember_quote_eq, parseString_render]
          simp only [hv]
  termination_by m _ _ _ _ => sizeOf m

/-- Parsing the rendered tail of an array consumes it up to `]`. -/
theorem rt_elems : ∀ (es : List Value) (fuel : Nat) (rest : List Char),
    (renderElemsRest es).length < fuel → delim rest = true →
    parseElemsRest fuel (renderElemsRest es ++ ']' :: rest) = some (es, rest)
  | [], fuel, rest, hf, _ => by
      cases fuel with
      | zero => exact absurd hf (by omega)
      | succ f =>
          show parseElemsRest (f + 1) (']' :: rest) = some ([], rest)
          exact parseElemsRest_rbracket_eq f rest
  | e :: es, fuel, rest, hf, hrest => by
      cases fuel with
      | zero => exact absurd hf (by omega)
      | succ f =>
          have hflen := hf
          simp only [renderElemsRest, List.length_cons, List.length_append] at hflen
          have hfe : (renderValue e).length < f := by omega
          have hfes : (renderElemsRest es).length < f := by omega
          have hv := rt_val e f (renderElemsRest es ++ ']' :: rest) hfe
            (delim_renderElemsRest es rest)
          have hes := rt_elems es f rest hfes hrest
          have harg : renderElemsRest (e :: es) ++ ']' :: rest
              = ',' :: (renderValue e ++ (renderElemsRest es ++ ']' :: rest)) := by
            simp [renderElemsRest, List.append_assoc]
          rw [harg, parseElemsRest_comma_eq]
          simp only [hv, hes]
  termination_by es _ _ _ _ => sizeOf es

/-- Parsing the rendered tail of an object consumes it up to the closing
brace. -/
theorem rt_members : ∀ (ms : List (String × Value)) (fuel : Nat) (rest : List Char),
    (renderMembersRest ms).length < fuel → delim rest = true →
    parseMembersRest fuel (renderMembersRest ms ++ '\x7d' :: rest) = some (ms, rest)
  | [], fuel, rest, hf, _ => by
      cases fuel with
      | zero => exact absurd hf (by omega)
      | succ f =>
          show parseMembersRest (f + 1) ('\x7d' :: rest) = some ([], rest)
          exact parseMembersRest_rbrace_eq f rest
  | m :: ms, fuel, rest, hf, hrest => by
      cases fuel with
      | zero => exact absurd hf (by omega)
      | succ f =>
          have hflen := hf
          simp only [renderMembersRest, List.length_cons, List.length_append] at hflen
          have hfm : (renderMember m).length < f := by omega
          have hfms : (renderMembersRest ms).length < f := by omega
          have hm := rt_member m f (renderMembersRest ms ++ '\x7d' :: rest) hfm
            (delim_renderMembersRest ms rest)
          have hms := rt_members ms f rest hfms hrest
          have harg : renderMembersRest (m :: ms) ++ '\x7d' :: rest
              = ',' :: (renderMember m ++ (renderMembersRest ms ++ '\x7d' :: rest)) := by
            simp [renderMembersRest, List.append_assoc]
          rw [harg, parseMembersRest_comma_eq]
          simp only [hm, hms]
  termination_by ms _ _ _ _ => sizeOf ms

end

end Codec

/-! ## Claim theorems: collection CRUD -/

open PantherCollection in
/-- C5: for every collection state and every filter (including the empty
filter), `count` with that filter equals the length of the list returned by
`find` with the same filter. -/
theorem count_eq_length_find (f : Filter) (docs : List Doc) :
    PantherCollection.count f docs = (PantherCollection.find f docs).length := by
  unfold PantherCollection.count PantherCollection.find
  by_cases hf : f.isEmpty
  · have : ∀ d : Doc, matchesDoc d f = true := by
      intro d
      have : f = [] := by cases f <;> simp_all [List.isEmpty]
      simp [this, matchesDoc]
    simp [hf, List.filter_eq_self.mpr (fun d _ => this d)]
  · simp [hf, PantherCollection.findIndexes, findIndexesFrom_length]

open PantherCollection in
/-- C1 counterexample: in the current implementation
(`PantherCollection.delete_many`), a call with an empty filter on a
one-document collection is not a no-op returning 0 — it deletes the
document and persists. -/
theorem delete_many_empty_filter_not_noop :
    ¬ ((PantherCollection.delete_many [] [[("a", Value.int 1)]]).count = 0 ∧
       (PantherCollection.delete_many [] [[("a", Value.int 1)]]).docs
          = [[("a", Value.int 1)]]) := by
  decide

open PantherCollection in
/-- C1 (amended): in the historical `PantherDBCollection.delete_many`, an
empty filter is a no-op returning 0 with nothing persisted, and a
non-empty filter matching zero documents returns 0 without persisting.
In the current `PantherCollection.delete_many`, only an empty collection
returns 0 without persisting; an empty filter on a non-empty collection
matches every document, deletes them all, persists, and returns their
count; and a non-empty filter matching zero documents returns 0 with the
stored documents unchanged, but still rewrites (persists) the content. -/
theorem delete_many_empty_and_no_match :
    (∀ docs : List Doc, PantherDBCollection.delete_many [] docs = ⟨0, docs, false⟩) ∧
    (∀ (f : Filter) (docs : List Doc), f ≠ [] →
        (∀ d ∈ docs, matchesDoc d f = false) →
        PantherDBCollection.delete_many f docs = ⟨0, docs, false⟩) ∧
    (∀ f : Filter, PantherCollection.delete_many f [] = ⟨0, [], false⟩) ∧
    (∀ docs : List Doc, docs ≠ [] →
        PantherCollection.delete_many [] docs = ⟨docs.length, [], true⟩) ∧
    (∀ (f : Filter) (docs : List Doc), docs ≠ [] →
        (∀ d ∈ docs, matchesDoc d f = false) →
        PantherCollection.delete_many f docs = ⟨0, docs, true⟩) := by
  refine ⟨?_, ?_, ?_, ?_, ?_⟩
  · intro docs
    simp [PantherDBCollection.delete_many]
  · intro f docs hf hnone
    have hidx : PantherCollection.findIndexes f docs = [] :=
      findIndexesFrom_eq_nil f docs hnone 0
    simp [PantherDBCollection.delete_many, hf, hidx]
  · intro f
    simp [PantherCollection.delete_many]
  · intro docs hdocs
    have hall : ∀ d : Doc, matchesDoc d ([] : Filter) = true := fun d => by
      simp [matchesDoc]
    have hlen : (PantherCollection.findIndexes ([] : Filter) docs).length = docs.length := by
      rw [PantherCollection.findIndexes, findIndexesFrom_length]
      simp [List.filter_eq_self.mpr (fun d _ => hall d)]
    have herase := foldl_eraseIdx_findIndexes ([] : Filter) docs
    simp only [hall, Bool.not_true, List.filter_false] at herase
    simp [PantherCollection.delete_many, List.isEmpty_iff, hdocs, hlen, herase]
  · intro f docs hdocs hnone
    have hidx : PantherCollection.findIndexes f docs = [] :=
      findIndexesFrom_eq_nil f docs hnone 0
    simp [PantherCollection.delete_many, List.isEmpty_iff, hdocs, hidx]

/-- Witness for the amended C1 theorem at concrete inputs. -/
theorem delete_many_empty_and_no_match_witness :
    PantherDBCollection.delete_many [] [[("a", Value.int 1)]]
        = ⟨0, [[("a", Value.int 1)]], false⟩ ∧
    PantherDBCollection.delete_many [("b", Value.int 2)] [[("a", Value.int 1)]]
        = ⟨0, [[("a", Value.int 1)]], false⟩ ∧
    PantherCollection.delete_many [] [[("a", Value.int 1)]] = ⟨1, [], true⟩ ∧
    PantherCollection.delete_many [("b", Value.int 2)] [[("a", Value.int 1)]]
        = ⟨0, [[("a", Value.int 1)]], true⟩ :=
  ⟨delete_many_empty_and_no_match.1 _,
   delete_many_empty_and_no_match.2.1 _ _ (by decide) (by decide),
   by
     have h := delete_many_empty_and_no_match.2.2.2.1
       [[("a", Value.int 1)]] (by decide)
     simpa using h,
   delete_many_empty_and_no_match.2.2.2.2 _ _ (by decide) (by decide)⟩

open PantherCollection in
/-- C6: with a non-empty filter, `delete_one` on zero matches returns
`False` without touching or persisting the collection; on at least one
match it removes exactly the first matching document in stored order,
persists, returns `True`, the length decreases by one, and the
non-matching documents keep their relative order. -/
theorem delete_one_spec (f : Filter) (docs : List Doc) (hf : f ≠ []) :
    ((∀ d ∈ docs, matchesDoc d f = false) →
        PantherCollection.delete_one f docs = ⟨false, docs, false⟩) ∧
    (∀ (pre : List Doc) (m : Doc) (post : List Doc),
        docs = pre ++ m :: post →
        (∀ d ∈ pre, matchesDoc d f = false) →
        matchesDoc m f = true →
        PantherCollection.delete_one f docs = ⟨true, pre ++ post, true⟩ ∧
        (pre ++ post).length + 1 = docs.length ∧
        (pre ++ post).filter (fun d => ! matchesDoc d f)
          = docs.filter (fun d => ! matchesDoc d f)) := by
  constructor
  · intro hnone
    have hidx : PantherCollection.findIndexes f docs = [] :=
      findIndexesFrom_eq_nil f docs hnone 0
    by_cases hd : docs.isEmpty
    · have : docs = [] := List.isEmpty_iff.mp hd
      simp [PantherCollection.delete_one, this]
    · simp [PantherCollection.delete_one, hd, List.isEmpty_iff, hf, hidx]
  · intro pre m post hsplit hpre hm
    subst hsplit
    have hidx : PantherCollection.findIndexes f (pre ++ m :: post)
        = pre.length :: findIndexesFrom f (pre.length + 1) post := by
      rw [PantherCollection.findIndexes, findIndexesFrom_append f pre m post hpre hm 0]
      simp
    refine ⟨?_, by simp; omega, ?_⟩
    · have hne : (pre ++ m :: post).isEmpty = false := by simp
      simp [PantherCollection.delete_one, hne, List.isEmpty_iff, hf, hidx,
        eraseIdx_append_length]
    · simp [List.filter_append, List.filter_cons, hm]

/-- Witness for the C6 theorem: a two-document collection where the second
document is the only match. -/
theorem delete_one_spec_witness :
    PantherCollection.delete_one [("a", Value.int 1)]
        [[("a", Value.int 2)], [("a", Value.int 1)]]
      = ⟨true, [[("a", Value.int 2)]], true⟩ :=
  ((delete_one_spec [("a", Value.int 1)]
      [[("a", Value.int 2)], [("a", Value.int 1)]] (by decide)).2
    [[("a", Value.int 2)]] [("a", Value.int 1)] [] rfl (by decide) (by decide)).1

/-! ## Lemmas about `assocSet` -/

theorem assocGet_assocSet_self {α : Type} (l : List (String × α)) (k : String) (v : α) :
    assocGet (assocSet l k v) k = some v := by
  induction l with
  | nil => simp [assocSet, assocGet, List.find?]
  | cons kv rest ih =>
      by_cases h : kv.1 == k
      · cases kv
        simp_all [assocSet, assocGet, List.find?]
      · cases kv
        simp_all [assocSet, assocGet, List.find?]

theorem filter_assocSet_ne {α : Type} (l : List (String × α)) (k : String) (v : α) :
    (assocSet l k v).filter (fun kv => kv.1 != k) = l.filter (fun kv => kv.1 != k) := by
  induction l with
  | nil => simp [assocSet, List.filter]
  | cons kv rest ih =>
      obtain ⟨k', v'⟩ := kv
      by_cases h : k' == k
      · have hk : k' = k := by simpa using h
        subst hk
        simp [assocSet, List.filter_cons]
      · simp only [assocSet, h, Bool.false_eq_true, if_false, List.filter_cons]
        have hne : (k' != k) = true := by simpa using h
        simp [hne, ih]

/-- C2 counterexample: `PantherDB('test')` and `PantherDB('test.json')`
resolve to the same backing file `test.json` (no encryption), yet the
registry — keyed by the raw name before extension normalization — hands
back two distinct instances. -/
theorem open_same_file_distinct_instances :
    resolvedDbName false (some "test") = resolvedDbName false (some "test.json") ∧
    (new (new [] (some "test")).1 (some "test.json")).2
      ≠ (new [] (some "test")).2 := by
  constructor
  · decide
  · decide

/-- C2 (amended): the process-wide registry of `PantherDB.__new__` is keyed
by the raw `db_name` argument (after substituting the default for a falsy
name), not by the resolved file path: two open calls return the same
instance exactly when their raw names coincide, and equal raw names do
imply the same resolved file — but calls whose paths normalize to the same
file (bare name vs. name with the extension already appended) yield
distinct instances. -/
theorem singleton_keyed_by_raw_name (instances : List String) (n1 n2 : Option String) :
    ((new (new instances n1).1 n2).2 = (new instances n1).2
      ↔ registryKey n1 = registryKey n2) ∧
    (registryKey n1 = registryKey n2 →
      ∀ secretKey, resolvedDbName secretKey n1 = resolvedDbName secretKey n2) := by
  constructor
  · cases h1 : keyIndex (registryKey n1) instances with
    | some i =>
        have e1 : new instances n1 = (instances, i) := by simp only [new, h1]
        rw [e1]
        show (new instances n2).2 = i ↔ _
        cases h2 : keyIndex (registryKey n2) instances with
        | some j =>
            have e2 : new instances n2 = (instances, j) := by simp only [new, h2]
            rw [e2]
            show j = i ↔ _
            constructor
            · intro hij
              have g1 := keyIndex_getElem (registryKey n1) instances i h1
              have g2 := keyIndex_getElem (registryKey n2) instances j h2
              rw [← g1, ← g2, hij]
            · intro hkeq
              rw [hkeq] at h1
              rw [h1] at h2
              injection h2 with h2
              omega
        | none =>
            have e2 : new instances n2
                = (instances ++ [registryKey n2], instances.length) := by
              simp only [new, h2]
            rw [e2]
            show instances.length = i ↔ _
            have hi := keyIndex_lt_length (registryKey n1) instances i h1
            constructor
            · intro hij
              omega
            · intro hkeq
              rw [hkeq] at h1
              rw [h1] at h2
              cases h2
    | none =>
        have e1 : new instances n1 = (instances ++ [registryKey n1], instances.length) := by
          simp only [new, h1]
        rw [e1]
        show (new (instances ++ [registryKey n1]) n2).2 = instances.length ↔ _
        cases h2 : keyIndex (registryKey n2) instances with
        | some j =>
            have h2' := keyIndex_append_of_some (registryKey n2) instances [registryKey n1] j h2
            have e2 : new (instances ++ [registryKey n1]) n2
                = (instances ++ [registryKey n1], j) := by
              simp only [new, h2']
            rw [e2]
            show j = instances.length ↔ _
            have hj := keyIndex_lt_length (registryKey n2) instances j h2
            constructor
            · intro hij
              omega
            · intro hkeq
              rw [← hkeq] at h2
              rw [h2] at h1
              cases h1
        | none =>
            by_cases hk : registryKey n1 = registryKey n2
            · have h2' : keyIndex (registryKey n2) (instances ++ [registryKey n1])
                  = some instances.length := by
                rw [keyIndex_append_of_none (registryKey n2) instances [registryKey n1] h2]
                simp [keyIndex, hk]
              have e2 : new (instances ++ [registryKey n1]) n2
                  = (instances ++ [registryKey n1], instances.length) := by
                simp only [new, h2']
              rw [e2]
              exact iff_of_true rfl hk
            · have h2' : keyIndex (registryKey n2) (instances ++ [registryKey n1])
                  = none := by
                rw [keyIndex_append_of_none (registryKey n2) instances [registryKey n1] h2]
                simp [keyIndex, hk]
              have e2 : new (instances ++ [registryKey n1]) n2
                  = ((instances ++ [registryKey n1]) ++ [registryKey n2],
                      (instances ++ [registryKey n1]).length) := by
                simp only [new, h2']
              rw [e2]
              show (instances ++ [registryKey n1]).length = instances.length ↔ _
              simp only [List.length_append, List.length_cons, List.length_nil]
              constructor
              · intro hij
                omega
              · intro hc
                exact absurd hc hk
  · intro hk secretKey
    rw [resolvedDbName_eq_extend, resolvedDbName_eq_extend, hk]

/-- Witness for the amended C2 theorem: the default-name call and the
explicit `database.pdb` call share a registry key, hence the same instance
and the same resolved file. -/
theorem singleton_keyed_by_raw_name_witness :
    registryKey (some "database.pdb") = registryKey none ∧
    ((new (new [] (some "database.pdb")).1 none).2 = (new [] (some "database.pdb")).2 ∧
      resolvedDbName false (some "database.pdb") = resolvedDbName false none) :=
  ⟨by decide,
   ((singleton_keyed_by_raw_name [] (some "database.pdb") none).1.mpr (by decide)),
   (singleton_keyed_by_raw_name [] (some "database.pdb") none).2 (by decide) false⟩

/-- C4 counterexample: a cursor configured with `skip(0).limit(0)` on a
one-document result does not materialize the empty sequence the claim's
`drop`-then-`take` formula gives — `limit(0)` is falsy and ignored. -/
theorem limit_zero_not_empty :
    Cursor.applyConditions none (some 0) (some 0) [[("a", Value.int 1)]]
      ≠ ((Cursor.applySort none [[("a", Value.int 1)]]).drop 0).take 0 := by
  decide

/-- C4 (amended): for every configured skip `n` and limit `m`, the
materialized sequence is the sorted sequence with its first `n` elements
dropped (`skip(0)` drops nothing) and then, only when `m ≥ 1`, truncated
to at most `m` elements; `limit(0)` is treated like no limit at all — the
whole remaining sequence materializes, not the empty one. -/
theorem apply_conditions_drop_take (sorts : Option (List (String × Int)))
    (n m : Nat) (docs : List Doc) :
    Cursor.applyConditions sorts (some n) (some m) docs
      = if m = 0 then (Cursor.applySort sorts docs).drop n
        else ((Cursor.applySort sorts docs).drop n).take m := by
  by_cases hn : n = 0 <;> by_cases hm : m = 0 <;>
    simp [Cursor.applyConditions, Cursor.applySkip, Cursor.applyLimit,
      Cursor.truthyNat, hn, hm]

/-- C7: the multi-key cursor sort runs one stable pass per key in reverse
list order (the first listed key's pass runs last and so wins), and on the
four documents with (first, last) pairs (A,0), (A,1), (B,0), (B,1) the
sort `[("first", -1), ("last", 1)]` materializes (B,0), (B,1), (A,0),
(A,1). -/
theorem multi_key_sort_passes :
    (∀ (s : String × Int) (ss : List (String × Int)) (docs : List Doc),
        Cursor.sortPasses (s :: ss) docs
          = Cursor.pySortPass s (Cursor.sortPasses ss docs)) ∧
    Cursor.applySort (some [("first", -1), ("last", 1)])
        [[("first", Value.str "A"), ("last", Value.int 0), ("_id", Value.str "1")],
         [("first", Value.str "A"), ("last", Value.int 1), ("_id", Value.str "2")],
         [("first", Value.str "B"), ("last", Value.int 0), ("_id", Value.str "3")],
         [("first", Value.str "B"), ("last", Value.int 1), ("_id", Value.str "4")]]
      = [[("first", Value.str "B"), ("last", Value.int 0), ("_id", Value.str "3")],
         [("first", Value.str "B"), ("last", Value.int 1), ("_id", Value.str "4")],
         [("first", Value.str "A"), ("last", Value.int 0), ("_id", Value.str "1")],
         [("first", Value.str "A"), ("last", Value.int 1), ("_id", Value.str "2")]] := by
  constructor
  · intro s ss docs
    unfold Cursor.sortPasses
    rw [List.reverse_cons, List.foldl_append, List.foldl_cons, List.foldl_nil]
  · decide

/-- C8: in plain (unencrypted) mode, decoding the encoded bytes yields the
same content map: for every content map, a `write` followed by a `reload`
of the written bytes returns exactly that map — the same collections,
documents, field values and `_id`s in the same order — and an empty byte
sequence reloads to an empty content map. -/
theorem write_reload_roundtrip :
    (∀ content : List (String × Value),
        Codec.reload (Codec.write content) = some (Value.obj content)) ∧
    Codec.reload [] = some (Value.obj []) := by
  constructor
  · intro content
    have hrt := Codec.rt_val (.obj content)
      ((Codec.renderValue (.obj content)).length + 1) [] (by omega) rfl
    rw [List.append_nil] at hrt
    obtain ⟨c, t, hct, _⟩ := Codec.renderValue_head (.obj content)
    have hne : (Codec.renderValue (.obj content)).isEmpty = false := by
      rw [hct]
      rfl
    show Codec.reload (Codec.renderValue (.obj content)) = some (Value.obj content)
    simp only [Codec.reload, hne, Bool.false_eq_true, if_false, hrt]
  · rfl

/-- C3: every identifier the generator produces for a millisecond timestamp
below `2 ^ 48` is a 26-character string over the Crockford base-32 alphabet
(I, L, O, U excluded) whose digits spell, in big-endian bit order, the
48-bit timestamp followed by the 80 random bits (decoding returns
`t * 2 ^ 80 + r`); and an identifier generated at a strictly later
millisecond sorts lexicographically after one generated earlier, whatever
the random bits. -/
theorem ulid_new_spec :
    (∀ t r : Nat, t < 2 ^ 48 → r < 2 ^ 80 →
        (ULID.new t r).length = 26 ∧
        (∀ c ∈ (ULID.new t r).data, c ∈ ULID.crockfordBase32Characters) ∧
        ULID.decode (ULID.new t r) = t * 2 ^ 80 + r) ∧
    (∀ t1 r1 t2 r2 : Nat, t1 < 2 ^ 48 → r1 < 2 ^ 80 → t2 < 2 ^ 48 → r2 < 2 ^ 80 →
        t1 < t2 → ULID.new t1 r1 < ULID.new t2 r2) := by
  have h4850 : ∀ t : Nat, t < 2 ^ 48 → t < 2 ^ 50 := by
    have : (2 : Nat) ^ 48 ≤ 2 ^ 50 := Nat.pow_le_pow_right (by norm_num) (by norm_num)
    omega
  have h3226 : (32 : Nat) ^ 26 = 2 ^ 130 := by
    rw [show (32 : Nat) = 2 ^ 5 from rfl, ← pow_mul]
  have hform : ∀ t r : Nat, t < 2 ^ 48 → r < 2 ^ 80 →
      ULID.new t r = ⟨(ULID.toDigits 32 26 (t * 2 ^ 80 + r)).map ULID.ulidChar⟩ := by
    intro t r ht hr
    rw [ULID.new_eq_toDigits t r (h4850 t ht) hr,
      ULID.generate_toDigits _ (ULID.ulidN_lt t r (h4850 t ht) hr)]
  constructor
  · intro t r ht hr
    have hN : t * 2 ^ 80 + r < 32 ^ 26 := by
      rw [h3226]
      exact ULID.ulidN_lt t r (h4850 t ht) hr
    have hdig := ULID.toDigits_lt 32 (by norm_num) 26 (t * 2 ^ 80 + r) hN
    refine ⟨?_, ?_, ?_⟩
    · rw [hform t r ht hr]
      show ((ULID.toDigits 32 26 (t * 2 ^ 80 + r)).map ULID.ulidChar).length = 26
      rw [List.length_map, ULID.toDigits_length]
    · rw [hform t r ht hr]
      intro c hc
      show c ∈ ULID.crockfordBase32Characters
      obtain ⟨d, hd, rfl⟩ := List.mem_map.mp hc
      exact ULID.ulidChar_mem ⟨d, hdig d hd⟩
    · rw [hform t r ht hr]
      show ULID.digitsVal 32 (((ULID.toDigits 32 26 (t * 2 ^ 80 + r)).map ULID.ulidChar).map
        ULID.charVal) = _
      rw [List.map_map]
      have hmc : ((ULID.toDigits 32 26 (t * 2 ^ 80 + r)).map (ULID.charVal ∘ ULID.ulidChar))
          = ULID.toDigits 32 26 (t * 2 ^ 80 + r) := by
        rw [show ULID.toDigits 32 26 (t * 2 ^ 80 + r)
            = (ULID.toDigits 32 26 (t * 2 ^ 80 + r)).map id from by simp]
        rw [List.map_map]
        apply List.map_congr_left
        intro d hd
        simp only [Function.comp, id]
        exact ULID.charVal_ulidChar ⟨d, hdig d (by simpa using hd)⟩
      rw [hmc]
      have h26 := ULID.digitsVal_toDigits 32 25 (t * 2 ^ 80 + r)
      norm_num at h26
      exact h26
  · intro t1 r1 t2 r2 ht1 hr1 ht2 hr2 htlt
    have hN1N2 : t1 * 2 ^ 80 + r1 < t2 * 2 ^ 80 + r2 := by
      have h1 : t1 * 2 ^ 80 + r1 < (t1 + 1) * 2 ^ 80 := by
        have e : (t1 + 1) * 2 ^ 80 = t1 * 2 ^ 80 + 2 ^ 80 := by ring
        rw [e]
        exact Nat.add_lt_add_left hr1 _
      have h2 : (t1 + 1) * 2 ^ 80 ≤ t2 * 2 ^ 80 := Nat.mul_le_mul_right _ (by omega)
      omega
    have hN2 : t2 * 2 ^ 80 + r2 < 32 ^ 26 := by
      rw [h3226]
      exact ULID.ulidN_lt t2 r2 (h4850 t2 ht2) hr2
    have hlex := ULID.lex_toDigits 32 (by norm_num) 26 _ _ hN1N2 hN2
    have hN1 : t1 * 2 ^ 80 + r1 < 32 ^ 26 := by omega
    have hmap := ULID.lex_map_ulidChar hlex
      (ULID.toDigits_lt 32 (by norm_num) 26 _ hN1)
      (ULID.toDigits_lt 32 (by norm_num) 26 _ hN2)
    rw [hform t1 r1 ht1 hr1, hform t2 r2 ht2 hr2, String.lt_iff_toList_lt]
    have htl : ∀ l : List Char, (⟨l⟩ : String).toList = l := fun l => rfl
    rw [htl, htl]
    exact hmap

/-- Witness for the C3 theorem at concrete inputs. -/
theorem ulid_new_spec_witness :
    (ULID.new 1 2).length = 26 ∧
    ULID.decode (ULID.new 1 2) = 1 * 2 ^ 80 + 2 ∧
    ULID.new 1 2 < ULID.new 3 0 :=
  ⟨(ulid_new_spec.1 1 2 (by norm_num) (by norm_num)).1,
   (ulid_new_spec.1 1 2 (by norm_num) (by norm_num)).2.2,
   ulid_new_spec.2 1 2 3 0 (by norm_num) (by norm_num) (by norm_num) (by norm_num)
     (by norm_num)⟩

open PantherCollection in
/-- C9: `insert_one` stamps a freshly generated `_id` on the stored and
returned document — silently replacing any caller-supplied `_id` while
keeping every other supplied field unchanged and in order — and appends the
document at the end of the collection. -/
theorem insert_one_spec (fields : Doc) (newId : Value) (docs : List Doc) :
    assocGet (PantherCollection.insert_one fields newId docs).1 "_id" = some newId ∧
    (PantherCollection.insert_one fields newId docs).1.filter (fun kv => kv.1 != "_id")
      = fields.filter (fun kv => kv.1 != "_id") ∧
    (PantherCollection.insert_one fields newId docs).2
      = docs ++ [(PantherCollection.insert_one fields newId docs).1] :=
  ⟨assocGet_assocSet_self fields "_id" newId,
   filter_assocSet_ne fields "_id" newId, rfl⟩

/-- C10: for a Document handle whose data carries `_id = selfId`: when the
reloaded collection contains a record with that `_id`, `save` replaces
exactly the first such record at its original position and persists; when
no stored record has that `_id`, `save` persists the collection's document
list unchanged (no re-insert). In both cases `_write_documents` reassigns
only this collection's entry: every other collection of the content map is
left untouched. -/
theorem save_spec (content : ContentMap) (name : String) (handleData : Doc) (selfId : Value)
    (hhd : assocGet handleData "_id" = some selfId) :
    (∀ (pre : List Doc) (d0 : Doc) (post : List Doc),
        (assocGet content name).getD [] = pre ++ d0 :: post →
        (∀ d ∈ pre, ∃ v, assocGet d "_id" = some v ∧ v ≠ selfId) →
        assocGet d0 "_id" = some selfId →
        PantherDocument.save content name handleData
          = some (assocSet content name (pre ++ handleData :: post))) ∧
    ((∀ d ∈ (assocGet content name).getD [], ∃ v, assocGet d "_id" = some v ∧ v ≠ selfId) →
        PantherDocument.save content name handleData
          = some (assocSet content name ((assocGet content name).getD []))) ∧
    (∀ (docs' : List Doc) (n' : String), n' ≠ name →
        assocGet (assocSet content name docs') n' = assocGet content n') := by
  refine ⟨?_, ?_, ?_⟩
  · intro pre d0 post hsplit hpre h0
    have hrep := PantherDocument.replaceById_found selfId handleData d0 post pre hpre h0
    simp only [PantherDocument.save, hhd, hsplit, hrep]
  · intro hnone
    have hrep := PantherDocument.replaceById_not_found selfId handleData
      ((assocGet content name).getD []) hnone
    simp only [PantherDocument.save, hhd, hrep]
  · intro docs' n' hne
    exact assocGet_assocSet_ne content name n' docs' hne

/-- Witness for the C10 theorem: a one-document collection whose record is
replaced in place by the handle's data. -/
theorem save_spec_witness :
    PantherDocument.save [("users", [[("_id", Value.int 1), ("x", Value.int 0)]])] "users"
        [("_id", Value.int 1), ("x", Value.int 5)]
      = some (assocSet [("users", [[("_id", Value.int 1), ("x", Value.int 0)]])] "users"
          [[("_id", Value.int 1), ("x", Value.int 5)]]) :=
  (save_spec [("users", [[("_id", Value.int 1), ("x", Value.int 0)]])] "users"
      [("_id", Value.int 1), ("x", Value.int 5)] (Value.int 1) (by decide)).1
    [] [("_id", Value.int 1), ("x", Value.int 0)] [] (by decide)
    (by intro d hd; simp at hd) (by decide)

end PantherDB
